import Mathlib

/-!
# Server_Client_Architecture: message framing, connection chains, server pool

A shallow embedding of the networking core (`Message.h`, `tsQueue.h`,
`connection.h`, `server.h`) and the properties established about it.

Conventions of the embedding

* A byte is a `Fin 256`; a `std::vector<uint8_t>` and a `std::deque` are lists.
* The framework is a template over the message-id type `T`.  The program
  instantiates it at `net::eMsgTypes`, an enum over `uint16_t` (`main.cpp`), and
  so does the embedding: `sMessageHeader` is two `uint16_t` fields, four bytes,
  without padding, laid out in the host's (little-endian) byte order.
* Unsigned machine integers are naturals; every place where the source can wrap
  carries an explicit `% 2 ^ w`.
* An asynchronous operation is an entry of a list of outstanding operations; a
  completion handler is a function run when an event removes the entry.
-/

namespace net

/-! ## Message.h -/

/-- One octet, the element type of `std::vector<uint8_t>`. -/
abbrev Byte := Fin 256

/-- The struct `sMessageHeader<T>`: `T id; uint16_t size = 0;`. -/
structure sMessageHeader where
  id : Nat
  size : Nat := 0
deriving DecidableEq, Repr

/-- The struct `sMessage<T>`: `sMessageHeader<T> header{}; std::vector<uint8_t> body;`.
A default-constructed message has a zeroed header and an empty body. -/
structure sMessage where
  header : sMessageHeader := { id := 0, size := 0 }
  body : List Byte := []
deriving DecidableEq, Repr

/-- The value of `sizeof(sMessageHeader<T>)` at `T = eMsgTypes`: two `uint16_t`. -/
def sizeofHeader : Nat := 4

/-- The call `v.resize(n)` of `std::vector<uint8_t>`: keeps the first `n` bytes,
value-initialises (zeroes) the new tail. -/
def resize (v : List Byte) (n : Nat) : List Byte :=
  v.take n ++ List.replicate (n - v.length) 0

/-- The call `std::memcpy(dst.data() + off, &src, sizeof src)`: overwrites
`src.length` bytes of `dst` from offset `off` on. -/
def memcpyTo (dst : List Byte) (off : Nat) (src : List Byte) : List Byte :=
  dst.take off ++ src ++ dst.drop (off + src.length)

/-- The call `std::memcpy(&data, src.data() + off, n)`: the `n` bytes copied out. -/
def memcpyFrom (src : List Byte) (off n : Nat) : List Byte :=
  (src.drop off).take n

/-- The member `sMessage::size()`, whose body is
`return sizeof(sMessageHeader<T> +body.size());`.
The closing parenthesis of `sizeof` encloses the whole sum, so the result is the
`sizeof` of one operand: a constant fixed at compile time, the operand is never
evaluated and the body is never consulted.  The operand is not a well-formed
expression, so the constant is a parameter, `sizeofOperand`. -/
def sMessage.size (sizeofOperand : Nat) (_msg : sMessage) : Nat :=
  sizeofOperand

/-- The friend `operator <<` at a `DataType` whose object representation is
`data` (`sizeof(DataType) = data.length`): grow the body, copy the value behind
the old end, then store `msg.size()` in the `uint16_t` field `header.size`. -/
def operator_lshift (sizeofOperand : Nat) (msg : sMessage) (data : List Byte) : sMessage :=
  let i := msg.body.length
  let msg1 : sMessage := { msg with body := resize msg.body (msg.body.length + data.length) }
  let msg2 : sMessage := { msg1 with body := memcpyTo msg1.body i data }
  { msg2 with header := { msg2.header with size := msg2.size sizeofOperand % 2 ^ 16 } }

/-- The friend `operator >>` at a `DataType` of `sizeofData` bytes: copy the last
`sizeofData` bytes of the body out, shrink the body, then store `msg.size()` in
`header.size`.  When the body is shorter than the field the pointer
`body.data() + i - sizeof(DataType)` leaves the buffer: no result. -/
def operator_rshift (sizeofOperand : Nat) (msg : sMessage) (sizeofData : Nat) :
    Option (sMessage × List Byte) :=
  let i := msg.body.length
  if sizeofData ≤ i then
    let data := memcpyFrom msg.body (i - sizeofData) sizeofData
    let msg1 : sMessage := { msg with body := resize msg.body (i - sizeofData) }
    some ({ msg1 with header := { msg1.header with size := msg1.size sizeofOperand % 2 ^ 16 } },
      data)
  else
    none

/-- A run of `msg << v1 << ... << vn`. -/
def pushAll (sizeofOperand : Nat) (msg : sMessage) (vs : List (List Byte)) : sMessage :=
  vs.foldl (operator_lshift sizeofOperand) msg

/-- A run of `msg >> x1 >> ... >> xn`, the i-th pop at a type of `sizes[i]`
bytes; the values are listed in the order they were popped. -/
def popAll (sizeofOperand : Nat) (msg : sMessage) :
    List Nat → Option (sMessage × List (List Byte))
  | [] => some (msg, [])
  | n :: ns =>
    match operator_rshift sizeofOperand msg n with
    | none => none
    | some (msg1, v) =>
      match popAll sizeofOperand msg1 ns with
      | none => none
      | some (msg2, vs) => some (msg2, v :: vs)

/-- The object representation of a `uint32_t` on the little-endian host. -/
def bytesOfUInt32 (x : Nat) : List Byte :=
  [Fin.ofNat (x % 256), Fin.ofNat (x / 256 % 256), Fin.ofNat (x / 65536 % 256),
   Fin.ofNat (x / 16777216 % 256)]

/-! ## tsQueue.h -/

/-- The class `TsQueue<T>`: a `std::deque<T>` behind a mutex.  Every member
function holds the lock for its whole body, so each is one atomic step on the
deque. -/
structure TsQueue (α : Type) where
  myDeque : List α := []
deriving DecidableEq, Repr

/-- The member `front()`; the front of an empty deque does not exist. -/
def TsQueue.front {α : Type} (q : TsQueue α) : Option α :=
  q.myDeque.head?

/-- The member `push_back(input)`. -/
def TsQueue.push_back {α : Type} (q : TsQueue α) (input : α) : TsQueue α :=
  { myDeque := q.myDeque ++ [input] }

/-- The member `empty()`. -/
def TsQueue.empty {α : Type} (q : TsQueue α) : Bool :=
  q.myDeque.isEmpty

/-- The member `count()`. -/
def TsQueue.count {α : Type} (q : TsQueue α) : Nat :=
  q.myDeque.length

/-- The member `pop_front()`: removes the front item and returns it; no result
on an empty deque. -/
def TsQueue.pop_front {α : Type} (q : TsQueue α) : Option (α × TsQueue α) :=
  match q.myDeque with
  | [] => none
  | item :: rest => some (item, { myDeque := rest })

/-- The struct `sOwnedMessage<T>`: `remote` is a pointer to a connection object
(its address), `none` for `nullptr`. -/
structure sOwnedMessage where
  remote : Option Nat := none
  message : sMessage
deriving DecidableEq, Repr

/-! ## connection.h -/

/-- The enum `connection::owner`. -/
inductive owner where
  | server
  | client
deriving DecidableEq, Repr

/-- An `asio::async_read` that was started on the socket and has not completed. -/
inductive ReadOp where
  /-- Started by `ReadHeader`: `sizeof(sMessageHeader<T>)` bytes into
  `m_msgTemporaryIn.header`. -/
  | header
  /-- Started by `ReadBody`: `n = m_msgTemporaryIn.body.size()` bytes into the body. -/
  | body (n : Nat)
deriving DecidableEq, Repr

/-- An `asio::async_write` that was started on the socket and has not completed,
with the bytes of the buffer it was given. -/
inductive WriteOp where
  /-- Started by `WriteHeader`: the bytes of `m_qMessagesOut.front().header`. -/
  | header (bytes : List Byte)
  /-- Started by `WriteBody`: the bytes of `m_qMessagesOut.front().body`. -/
  | body (bytes : List Byte)
deriving DecidableEq, Repr

/-- The bytes a write operation hands to the socket. -/
def WriteOp.bytes : WriteOp → List Byte
  | .header bs => bs
  | .body bs => bs

/-- The number of bytes a read operation waits for. -/
def ReadOp.count : ReadOp → Nat
  | .header => sizeofHeader
  | .body n => n

/-- The class `connection<T>`.  Beside the data members it carries the parts of
the environment its handlers act on: the address of the object (`self`, what
`shared_from_this()` points to), whether `m_socket` is open, the asynchronous
reads and writes outstanding on the socket, and the bytes written to the socket
so far (`wire`).  `m_qMessagesIn` is the owner's queue the member refers to. -/
structure connection where
  self : Nat
  socketOpen : Bool
  m_qMessagesOut : TsQueue sMessage := {}
  m_qMessagesIn : TsQueue sOwnedMessage
  m_msgTemporaryIn : sMessage := {}
  m_nOwnerType : owner := owner.server
  id : Nat := 0
  reads : List ReadOp := []
  writes : List WriteOp := []
  wire : List Byte := []
deriving DecidableEq, Repr

/-- The constructor `connection(parent, asioContext, socket, qIn)`. -/
def connection.new (self : Nat) (parent : owner) (socketOpen : Bool)
    (qIn : TsQueue sOwnedMessage) : connection :=
  { self := self, socketOpen := socketOpen, m_qMessagesIn := qIn, m_nOwnerType := parent }

/-- The object representation of a header: `id` then `size`, two bytes each,
low byte first. -/
def encodeHeader (h : sMessageHeader) : List Byte :=
  [Fin.ofNat (h.id % 256), Fin.ofNat (h.id / 256 % 256),
   Fin.ofNat (h.size % 256), Fin.ofNat (h.size / 256 % 256)]

/-- The header whose object representation is the given `sizeofHeader` bytes. -/
def decodeHeader (bytes : List Byte) : sMessageHeader :=
  { id := (bytes.getD 0 0).val + 256 * (bytes.getD 1 0).val,
    size := (bytes.getD 2 0).val + 256 * (bytes.getD 3 0).val }

/-- The member `IsConnected()`. -/
def connection.IsConnected (c : connection) : Bool :=
  c.socketOpen

/-- The member `GetId()`. -/
def connection.GetId (c : connection) : Nat :=
  c.id

/-- The member `ReadHeader()`: starts the read of the next header. -/
def ReadHeader (c : connection) : connection :=
  { c with reads := c.reads ++ [ReadOp.header] }

/-- The member `ReadBody()`: starts the read of `body.size()` bytes. -/
def ReadBody (c : connection) : connection :=
  { c with reads := c.reads ++ [ReadOp.body c.m_msgTemporaryIn.body.length] }

/-- The member `AddToIncomingMessageQueue()`. -/
def AddToIncomingMessageQueue (c : connection) : connection :=
  let c1 : connection :=
    if c.m_nOwnerType = owner.server then
      { c with m_qMessagesIn :=
          c.m_qMessagesIn.push_back { remote := some c.self, message := c.m_msgTemporaryIn } }
    else
      { c with m_qMessagesIn :=
          c.m_qMessagesIn.push_back { remote := none, message := c.m_msgTemporaryIn } }
  ReadHeader c1

/-- The completion handler passed to `async_read` in `ReadHeader`; `ec` is true
when the operation reported an error. -/
def ReadHeader_completion (c : connection) (ec : Bool) : connection :=
  if !ec then
    if c.m_msgTemporaryIn.header.size > 0 then
      ReadBody { c with m_msgTemporaryIn :=
        { c.m_msgTemporaryIn with
          body := resize c.m_msgTemporaryIn.body c.m_msgTemporaryIn.header.size } }
    else
      AddToIncomingMessageQueue c
  else
    { c with socketOpen := false }

/-- The completion handler passed to `async_read` in `ReadBody`. -/
def ReadBody_completion (c : connection) (ec : Bool) : connection :=
  if !ec then
    AddToIncomingMessageQueue c
  else
    { c with socketOpen := false }

/-- The member `WriteHeader()`: starts the write of the front message's header.
It reads `m_qMessagesOut.front()`, which does not exist on an empty queue. -/
def WriteHeader (c : connection) : Option connection :=
  match c.m_qMessagesOut.front with
  | none => none
  | some m => some { c with writes := c.writes ++ [WriteOp.header (encodeHeader m.header)] }

/-- The member `WriteBody()`: starts the write of the front message's body. -/
def WriteBody (c : connection) : Option connection :=
  match c.m_qMessagesOut.front with
  | none => none
  | some m => some { c with writes := c.writes ++ [WriteOp.body m.body] }

/-- The tail shared by both write completions: `m_qMessagesOut.pop_front();`
then `if (!m_qMessagesOut.empty()) WriteHeader();`. -/
def popAndContinue (c : connection) : Option connection :=
  match c.m_qMessagesOut.pop_front with
  | none => none
  | some (_, q) =>
    let c1 : connection := { c with m_qMessagesOut := q }
    if !c1.m_qMessagesOut.empty then WriteHeader c1 else some c1

/-- The completion handler passed to `async_write` in `WriteHeader`. -/
def WriteHeader_completion (c : connection) (ec : Bool) : Option connection :=
  if !ec then
    match c.m_qMessagesOut.front with
    | none => none
    | some m =>
      if m.body.length > 0 then WriteBody c
      else popAndContinue c
  else
    some { c with socketOpen := false }

/-- The completion handler passed to `async_write` in `WriteBody`. -/
def WriteBody_completion (c : connection) (ec : Bool) : Option connection :=
  if !ec then
    popAndContinue c
  else
    some { c with socketOpen := false }

/-- The handler `Send(message)` posts to the context. -/
def Send_handler (c : connection) (message : sMessage) : Option connection :=
  let bWritingMessage := !c.m_qMessagesOut.empty
  let c1 : connection := { c with m_qMessagesOut := c.m_qMessagesOut.push_back message }
  if !bWritingMessage then WriteHeader c1 else some c1

/-- The member `ConnectToClient(uid)`. -/
def ConnectToClient (c : connection) (uid : Nat) : connection :=
  if c.m_nOwnerType = owner.server then
    if c.socketOpen then
      ReadHeader { c with id := uid }
    else c
  else c

/-- The completion handler passed to `async_connect` in `ConnectToServer`. -/
def ConnectToServer_completion (c : connection) (ec : Bool) : connection :=
  if !ec then ReadHeader c else c

/-- What the single driver of a connection can run next: the handler posted by
a `Send`, or the completion of the outstanding read or write number `i`; `ec`
is true when that operation failed, `data` is what a read received. -/
inductive Event where
  | send (message : sMessage)
  | readDone (i : Nat) (ec : Bool) (data : List Byte)
  | writeDone (i : Nat) (ec : Bool)
deriving DecidableEq, Repr

/-- One handler run on the driver.  A completion is possible only for an
operation that is outstanding; it leaves the list of outstanding operations
before its handler runs.  A successful read has filled the whole buffer it was
given (so `data` has exactly that many bytes); a successful write has put the
whole buffer on the wire. -/
def step (c : connection) : Event → Option connection
  | .send message => Send_handler c message
  | .readDone i ec data =>
    match c.reads.get? i with
    | none => none
    | some op =>
      let c1 : connection := { c with reads := c.reads.eraseIdx i }
      if ec then
        match op with
        | .header => some (ReadHeader_completion c1 true)
        | .body _ => some (ReadBody_completion c1 true)
      else if data.length = op.count then
        match op with
        | .header =>
          some (ReadHeader_completion
            { c1 with m_msgTemporaryIn :=
                { c1.m_msgTemporaryIn with header := decodeHeader data } } false)
        | .body _ =>
          some (ReadBody_completion
            { c1 with m_msgTemporaryIn :=
                { c1.m_msgTemporaryIn with
                  body := memcpyTo c1.m_msgTemporaryIn.body 0 data } } false)
      else none
  | .writeDone i ec =>
    match c.writes.get? i with
    | none => none
    | some op =>
      let c1 : connection := { c with writes := c.writes.eraseIdx i }
      let c2 : connection := if ec then c1 else { c1 with wire := c1.wire ++ op.bytes }
      match op with
      | .header _ => WriteHeader_completion c2 ec
      | .body _ => WriteBody_completion c2 ec

/-- A sequence of handlers run one after the other. -/
def run (c : connection) : List Event → Option connection
  | [] => some c
  | e :: es =>
    match step c e with
    | none => none
    | some c1 => run c1 es

/-- The events of the write chain for one message handed to `Send` on an idle
connection: the posted handler, the header write, and the body write when the
body is not empty. -/
def writeEvents (m : sMessage) : List Event :=
  if m.body.length > 0 then
    [Event.send m, Event.writeDone 0 false, Event.writeDone 0 false]
  else
    [Event.send m, Event.writeDone 0 false]

/-- The receiving side of the socket, one step: the oldest outstanding read
completes successfully once the stream holds as many bytes as its buffer, and
consumes them. -/
def recvStep (c : connection) (stream : List Byte) : Option (connection × List Byte) :=
  match c.reads with
  | [] => none
  | op :: _ =>
    if op.count ≤ stream.length then
      match step c (Event.readDone 0 false (stream.take op.count)) with
      | none => none
      | some c1 => some (c1, stream.drop op.count)
    else none

/-- The receiving side run until no read can complete, at most `fuel` steps. -/
def recv : Nat → connection → List Byte → connection × List Byte
  | 0, c, stream => (c, stream)
  | fuel + 1, c, stream =>
    match recvStep c stream with
    | none => (c, stream)
    | some (c1, rest) => recv fuel c1 rest

/-- The values a message object can hold: `id` and `size` are 16-bit. -/
def sMessage.Representable (m : sMessage) : Prop :=
  m.header.id < 2 ^ 16 ∧ m.header.size < 2 ^ 16

instance (m : sMessage) : Decidable m.Representable := by
  unfold sMessage.Representable; infer_instance

/-- The bytes of one message on the wire: its header, then its body. -/
def wireBytes (m : sMessage) : List Byte :=
  encodeHeader m.header ++ m.body

/-- The message a handler posted by `Send` carries. -/
def Event.sent : Event → Option sMessage
  | .send m => some m
  | _ => none

/-- The messages handed to `Send` in a sequence of events, in order. -/
def sentMessages (evs : List Event) : List sMessage :=
  evs.filterMap Event.sent

/-- The event is a write completion that reports an error. -/
def Event.isWriteFailure : Event → Bool
  | .writeDone _ true => true
  | _ => false

/-- No write completion of the sequence reports an error. -/
def noWriteFailure (evs : List Event) : Bool :=
  evs.all (fun e => !e.isWriteFailure)

/-- The wire bytes of a sequence of messages, one after the other. -/
def flatWire (ms : List sMessage) : List Byte :=
  (ms.map wireBytes).flatten

/-- The state of the write chain, with the bytes `total` that are on the wire or
still owed to it: the chain is idle with an empty queue, or the header of the
front message is being written, or its body is. -/
def WireInv (c : connection) (total : List Byte) : Prop :=
  (c.writes = [] ∧ c.m_qMessagesOut.myDeque = [] ∧ c.wire = total)
  ∨ (∃ m rest, c.m_qMessagesOut.myDeque = m :: rest
      ∧ c.writes = [WriteOp.header (encodeHeader m.header)]
      ∧ c.wire ++ flatWire (m :: rest) = total)
  ∨ (∃ m rest, c.m_qMessagesOut.myDeque = m :: rest
      ∧ c.writes = [WriteOp.body m.body]
      ∧ c.wire ++ (m.body ++ flatWire rest) = total)

/-- The bytes an event adds to what the connection owes the wire. -/
def Event.wireBytes : Event → List Byte
  | .send m => net.wireBytes m
  | _ => []

/-! ## server.h -/

/-- The class `server_interface<T>`.  A `std::shared_ptr<connection<T>>` is the
address of a connection object, `none` for `nullptr`; the objects made by
`std::make_shared` live in `objects`, the object at address `a` being
`objects[a]`.  Beside the data members the state records what the handlers do to
their environment: the handlers `Send` posted to `m_asioContext` (`posted`, with
the address of the connection they were called on), the calls of the hook
`OnClientDisconnect` with their argument (`disconnected`), the number of
`async_accept` operations outstanding, and the ids printed by the line
`"ID: " << m_deqConnections.back()->GetId() << " Connection Approved!"`. -/
structure server_interface where
  m_qMessagesIn : TsQueue sOwnedMessage := {}
  m_deqConnections : List (Option Nat) := []
  nIDCounter : Nat := 10000
  objects : List connection := []
  posted : List (Nat × sMessage) := []
  disconnected : List (Option Nat) := []
  acceptsArmed : Nat := 0
  approved : List Nat := []
deriving DecidableEq, Repr

/-- The test `client && client->IsConnected()` on a pointer. -/
def server_interface.connected (s : server_interface) (client : Option Nat) : Bool :=
  match client with
  | none => false
  | some a =>
    match s.objects[a]? with
    | none => false
    | some c => c.IsConnected

/-- The call `client->Send(message)`: posts the handler to the context. -/
def server_interface.Send (s : server_interface) (client : Option Nat) (message : sMessage) :
    server_interface :=
  match client with
  | none => s
  | some a => { s with posted := s.posted ++ [(a, message)] }

/-- The call of the hook `OnClientDisconnect(client)`. -/
def server_interface.OnClientDisconnect (s : server_interface) (client : Option Nat) :
    server_interface :=
  { s with disconnected := s.disconnected ++ [client] }

/-- The call `m_deqConnections.erase(std::remove(begin, end, value), end)`:
drops every element equal to `value`, keeps the others in order. -/
def eraseRemove (pool : List (Option Nat)) (value : Option Nat) : List (Option Nat) :=
  pool.filter (fun p => p ≠ value)

/-- The member `MessageClient(client, message)`.  `client` is the function's own
copy of the pointer; `client.reset()` makes that copy null before it is handed
to `std::remove`. -/
def server_interface.MessageClient (s : server_interface) (client : Option Nat)
    (message : sMessage) : server_interface :=
  if s.connected client then
    s.Send client message
  else
    let s1 := s.OnClientDisconnect client
    let client : Option Nat := none
    { s1 with m_deqConnections := eraseRemove s1.m_deqConnections client }

/-- The range-for loop of `MessageAllClients` over the elements of the pool that
are still to visit; `client` is a reference to the pool element, so
`client.reset()` nulls the element in place.  Returns the visited elements as
the loop leaves them, the server state and `bInvalidClientExists`. -/
def MessageAllClients_loop (message : sMessage) (pIgnoreClient : Option Nat) :
    List (Option Nat) → server_interface → Bool →
      List (Option Nat) × server_interface × Bool
  | [], s, bInvalidClientExists => ([], s, bInvalidClientExists)
  | client :: rest, s, bInvalidClientExists =>
    if s.connected client then
      let s1 := if client ≠ pIgnoreClient then s.Send client message else s
      let r := MessageAllClients_loop message pIgnoreClient rest s1 bInvalidClientExists
      (client :: r.1, r.2)
    else
      let s1 := s.OnClientDisconnect client
      let r := MessageAllClients_loop message pIgnoreClient rest s1 true
      (none :: r.1, r.2)

/-- The member `MessageAllClients(message, pIgnoreClient)`. -/
def server_interface.MessageAllClients (s : server_interface) (message : sMessage)
    (pIgnoreClient : Option Nat) : server_interface :=
  let r := MessageAllClients_loop message pIgnoreClient s.m_deqConnections s false
  let s1 : server_interface := { r.2.1 with m_deqConnections := r.1 }
  if r.2.2 then
    { s1 with m_deqConnections := eraseRemove s1.m_deqConnections none }
  else s1

/-- The member `WaitForClientConnection()`: starts one `async_accept`. -/
def server_interface.WaitForClientConnection (s : server_interface) : server_interface :=
  { s with acceptsArmed := s.acceptsArmed + 1 }

/-- The completion handler passed to `async_accept`.  `ec` is true when the
accept failed; `approve` is what the hook `OnClientConnect(newconn)` returns.
The socket of a successful accept is open.  `nIDCounter++` is a `uint32_t`
increment. -/
def server_interface.accept_completion (s : server_interface) (ec : Bool) (approve : Bool) :
    server_interface :=
  let s1 : server_interface :=
    if !ec then
      let newconn := connection.new s.objects.length owner.server true s.m_qMessagesIn
      let s2 : server_interface := { s with objects := s.objects ++ [newconn] }
      if approve then
        let s3 : server_interface :=
          { s2 with m_deqConnections := s2.m_deqConnections ++ [some newconn.self] }
        let uid := s3.nIDCounter
        let s4 : server_interface := { s3 with nIDCounter := (s3.nIDCounter + 1) % 2 ^ 32 }
        match s4.m_deqConnections.getLast? with
        | some (some back) =>
          let s5 : server_interface :=
            { s4 with objects := s4.objects.modify (fun c => ConnectToClient c uid) back }
          match s5.objects[back]? with
          | some c => { s5 with approved := s5.approved ++ [c.GetId] }
          | none => s5
        | _ => s4
      else s2
    else s
  s1.WaitForClientConnection

/-- The member `Start()`: arms the accept loop (and starts the thread that runs
the context). -/
def server_interface.Start (s : server_interface) : server_interface :=
  s.WaitForClientConnection

/-- The loop of `Update`: while `nMessagecount < nMaxMessages` and the queue is
not empty, pop the front entry, hand it to the hook `OnMessage`, count it.  The
hook acts on the state `app` of the application and has no access to the queue.
`nMessagecount++` is a `size_t` increment. -/
def Update_loop {σ : Type} (OnMessage : σ → sOwnedMessage → σ) (nMaxMessages : Nat) :
    List sOwnedMessage → Nat → σ → σ × TsQueue sOwnedMessage
  | [], _, app => (app, { myDeque := [] })
  | msg :: rest, nMessagecount, app =>
    if nMessagecount < nMaxMessages then
      Update_loop OnMessage nMaxMessages rest ((nMessagecount + 1) % 2 ^ 64)
        (OnMessage app msg)
    else (app, { myDeque := msg :: rest })

/-- The member `Update(nMaxMessages)`. -/
def server_interface.Update {σ : Type} (OnMessage : σ → sOwnedMessage → σ)
    (s : server_interface) (app : σ) (nMaxMessages : Nat) : σ × server_interface :=
  let r := Update_loop OnMessage nMaxMessages s.m_qMessagesIn.myDeque 0 app
  (r.1, { s with m_qMessagesIn := r.2 })

/-- The default of `nMaxMessages`: `size_t(-1)`. -/
def Update_unbounded : Nat := 2 ^ 64 - 1

/-- What can happen to a running server: an accept completes, the socket of the
connection object at address `a` gets closed, or the application calls
`MessageClient` or `MessageAllClients`. -/
inductive ServerEvent where
  | accept (ec : Bool) (approve : Bool)
  | socketClosed (a : Nat)
  | messageClient (client : Option Nat) (message : sMessage)
  | messageAllClients (message : sMessage) (pIgnoreClient : Option Nat)
deriving DecidableEq, Repr

/-- One step of the server.  An accept can complete only while an
`async_accept` is outstanding. -/
def serverStep (s : server_interface) : ServerEvent → Option server_interface
  | .accept ec approve =>
    if s.acceptsArmed = 0 then none
    else some (({ s with acceptsArmed := s.acceptsArmed - 1 } : server_interface).accept_completion
      ec approve)
  | .socketClosed a =>
    some { s with objects := s.objects.modify (fun c => { c with socketOpen := false }) a }
  | .messageClient client message => some (s.MessageClient client message)
  | .messageAllClients message pIgnoreClient => some (s.MessageAllClients message pIgnoreClient)

/-- A sequence of server steps. -/
def serverRun (s : server_interface) : List ServerEvent → Option server_interface
  | [] => some s
  | e :: es =>
    match serverStep s e with
    | none => none
    | some s1 => serverRun s1 es

/-- The handlers `Send` posts when called with `message` on each pointer of a
list, in order. -/
def sendsTo (message : sMessage) (clients : List (Option Nat)) : List (Nat × sMessage) :=
  clients.filterMap (fun p => p.map (fun a => (a, message)))

/-! ## Sample values -/

/-- A message with id 1 and the 32-bit value 15 as its body. -/
def sampleMessage : sMessage :=
  { header := { id := 1, size := 4 }, body := bytesOfUInt32 15 }

/-- A ping: id 0, empty body. -/
def samplePing : sMessage :=
  { header := { id := 0, size := 0 }, body := [] }

/-- A client-side connection right after its construction. -/
def sampleSender : connection :=
  connection.new 1 owner.client true {}

/-- A server-side connection right after `ConnectToClient(10000)`. -/
def sampleReceiver : connection :=
  ConnectToClient (connection.new 0 owner.server true {}) 10000

/-- The state a sequence of handlers leads to (the start state when some handler
cannot run). -/
def runD (c : connection) (evs : List Event) : connection :=
  (run c evs).getD c

/-- Two sends in a row, then the three writes they need. -/
def sampleSends : List Event :=
  [Event.send sampleMessage, Event.send samplePing, Event.writeDone 0 false,
   Event.writeDone 0 false, Event.writeDone 0 false]

/-- A send that overtakes the completion of the write before it. -/
def sampleInterleaving : List Event :=
  [Event.send samplePing, Event.send sampleMessage, Event.writeDone 0 false,
   Event.send samplePing, Event.writeDone 0 false, Event.writeDone 0 false,
   Event.writeDone 0 false]

/-- An inbox of three entries. -/
def sampleInbox : server_interface :=
  { m_qMessagesIn := { myDeque :=
      [{ remote := some 0, message := samplePing }, { remote := some 1, message := sampleMessage },
       { remote := some 0, message := sampleMessage }] } }

/-- A hook `OnMessage` that records the entries it is given. -/
def recordMessage (log : List sOwnedMessage) (msg : sOwnedMessage) : List sOwnedMessage :=
  log ++ [msg]

/-- The header of `sampleMessage` arrives on `sampleReceiver`: its body read is
then outstanding. -/
def sampleHeaderRead : List Event :=
  [Event.readDone 0 false (encodeHeader sampleMessage.header)]

/-- Handlers that still run after the read chain has stopped. -/
def sampleAfterFailure : List Event :=
  [Event.send samplePing, Event.writeDone 0 false, Event.send sampleMessage]

/-- One connection is accepted and approved, its socket gets closed, then the
application calls `MessageClient` on it. -/
def sampleLostClient : List ServerEvent :=
  [ServerEvent.accept false true, ServerEvent.socketClosed 0,
   ServerEvent.messageClient (some 0) samplePing]

/-- So many approved connections that the 32-bit id counter has wrapped and come
back to its first value. -/
def manyAccepts : List ServerEvent :=
  List.replicate (2 ^ 32 + 1) (ServerEvent.accept false true)

/-- The approvals that use up the ids `10000 .. 2^32 - 2`: the id counter then
holds the largest 32-bit value. -/
def acceptsUpToLastId : List ServerEvent :=
  List.replicate (2 ^ 32 - 10001) (ServerEvent.accept false true)

/-- The bytes of `sampleMessage` (four body bytes) followed by the bytes of
`samplePing` (no body), as one peer sends them back to back. -/
def sampleTwoFrames : List Byte :=
  wireBytes sampleMessage ++ wireBytes samplePing

/-! ## The read chain as the specification words it -/

/-- Where the read chain stands between two read completions: waiting for a
header, waiting for the body of a header that was read, or halted by a failure. -/
inductive ReadPhase where
  | header
  | body (h : sMessageHeader)
  | halted
deriving DecidableEq, Repr

/-- The frames a sequence of events reads completely, in the words of the
specification of the read chain: a successful header read with `bodySize = 0`
completes a frame; a successful header read with `bodySize > 0` must be followed
by a successful body read, which completes the frame with the bytes received;
a failure at either step halts the chain, and nothing is read after it.  Events
that are not read completions do not take part. -/
def specFramesRead : ReadPhase → List Event → List (sMessageHeader × List Byte)
  | _, [] => []
  | ph, e :: es =>
    match ph, e with
    | .halted, _ => []
    | .header, .readDone _ false data =>
      if 0 < (decodeHeader data).size then specFramesRead (.body (decodeHeader data)) es
      else (decodeHeader data, []) :: specFramesRead .header es
    | .body h, .readDone _ false data => (h, data) :: specFramesRead .header es
    | _, .readDone _ true _ => []
    | ph, _ => specFramesRead ph es

/-- The entry `d` of the incoming queue is the delivery of the completely read
frame `f`: it carries the header that was read and, when the header announces a
body, exactly the announced number of bytes, the ones that were read. -/
def FrameDelivered (d : sOwnedMessage) (f : sMessageHeader × List Byte) : Prop :=
  d.message.header = f.1 ∧ (0 < f.1.size → d.message.body = f.2 ∧ f.2.length = f.1.size)

/-- The state of a connection agrees with a phase of the read chain. -/
def ReadInv (c : connection) : ReadPhase → Prop
  | .header => c.reads = [ReadOp.header]
  | .body h => c.reads = [ReadOp.body h.size] ∧ c.m_msgTemporaryIn.header = h
      ∧ c.m_msgTemporaryIn.body.length = h.size ∧ 0 < h.size
  | .halted => c.reads = [] ∧ c.socketOpen = false

/-- A frame with a body arrives, then a frame without one, then the next read
fails. -/
def sampleFramesThenFailure : List Event :=
  [Event.readDone 0 false (encodeHeader sampleMessage.header),
   Event.readDone 0 false sampleMessage.body,
   Event.readDone 0 false (encodeHeader samplePing.header),
   Event.readDone 0 true []]

end net

namespace net

/-! ## Facts about the message codec -/

theorem resize_grow (v : List Byte) (k : Nat) :
    resize v (v.length + k) = v ++ List.replicate k 0 := by
  simp [resize]

theorem resize_shrink (b v : List Byte) :
    resize (b ++ v) ((b ++ v).length - v.length) = b := by
  simp [resize]

theorem operator_lshift_body (K : Nat) (msg : sMessage) (data : List Byte) :
    (operator_lshift K msg data).body = msg.body ++ data := by
  simp [operator_lshift, resize_grow, memcpyTo]

theorem operator_lshift_header_size (K : Nat) (msg : sMessage) (data : List Byte) :
    (operator_lshift K msg data).header.size = K % 2 ^ 16 := by
  simp [operator_lshift, sMessage.size]

theorem operator_rshift_append (K : Nat) (msg : sMessage) (b v : List Byte)
    (h : msg.body = b ++ v) :
    ∃ msg1, operator_rshift K msg v.length = some (msg1, v) ∧ msg1.body = b
      ∧ msg1.header.id = msg.header.id := by
  have hle : v.length ≤ msg.body.length := by simp [h]
  have hd : memcpyFrom msg.body (msg.body.length - v.length) v.length = v := by
    simp [memcpyFrom, h]
  have hr : resize msg.body (msg.body.length - v.length) = b := by
    rw [h]; exact resize_shrink b v
  simp only [operator_rshift, hle, if_true, hd, hr]
  exact ⟨_, rfl, rfl, rfl⟩

theorem pushAll_body (K : Nat) (vs : List (List Byte)) (msg : sMessage) :
    (pushAll K msg vs).body = msg.body ++ vs.flatten := by
  induction vs generalizing msg with
  | nil => simp [pushAll]
  | cons v vs ih =>
    have := ih (operator_lshift K msg v)
    simp only [pushAll, List.foldl_cons] at this ⊢
    rw [this, operator_lshift_body]
    simp

theorem popAll_reverse (K : Nat) (vs : List (List Byte)) (b : List Byte) (msg : sMessage)
    (h : msg.body = b ++ vs.flatten) :
    ∃ msg1, popAll K msg (vs.reverse.map List.length) = some (msg1, vs.reverse)
      ∧ msg1.body = b := by
  induction vs using List.reverseRecOn generalizing msg with
  | nil => exact ⟨msg, by simp [popAll], by simpa using h⟩
  | append_singleton vs v ih =>
    have hb : msg.body = (b ++ vs.flatten) ++ v := by simp [h]
    obtain ⟨m1, h1, hb1, _⟩ := operator_rshift_append K msg _ v hb
    obtain ⟨m2, h2, hb2⟩ := ih m1 hb1
    refine ⟨m2, ?_, hb2⟩
    simp only [List.reverse_append, List.reverse_cons, List.reverse_nil, List.nil_append,
      List.singleton_append, List.map_cons, popAll, h1, h2]

/-- C2: pushing `v1 .. vn` with `operator <<` and then popping `n` values with
`operator >>`, each at the size of the matching push, succeeds, returns
`vn, .., v1` in that order and leaves the body as it was before the first push. -/
theorem C2_push_pop_stack_law (sizeofOperand : Nat) (msg : sMessage) (vs : List (List Byte)) :
    ∃ msg1, popAll sizeofOperand (pushAll sizeofOperand msg vs) (vs.reverse.map List.length)
        = some (msg1, vs.reverse)
      ∧ msg1.body = msg.body :=
  popAll_reverse sizeofOperand vs msg.body _ (pushAll_body sizeofOperand vs msg)

end net

namespace net

/-! ## Facts about the framing round trip -/

theorem decodeHeader_encodeHeader (h : sMessageHeader) (hid : h.id < 2 ^ 16)
    (hsz : h.size < 2 ^ 16) : decodeHeader (encodeHeader h) = h := by
  obtain ⟨id, size⟩ := h
  simp only [decodeHeader, encodeHeader, List.getD_cons_zero, List.getD_cons_succ, Fin.ofNat,
    sMessageHeader.mk.injEq] at *
  constructor <;> omega

theorem encodeHeader_length (h : sMessageHeader) : (encodeHeader h).length = sizeofHeader := rfl

theorem run_writeEvents (sender : connection) (m : sMessage)
    (hq : sender.m_qMessagesOut.myDeque = []) (hw : sender.writes = []) :
    run sender (writeEvents m)
      = some { sender with wire := sender.wire ++ wireBytes m } := by
  obtain ⟨self, so, ⟨out⟩, qin, tmp, ow, id, rd, wr, wire⟩ := sender
  simp only at hq hw
  subst hq hw
  obtain ⟨hdr, body⟩ := m
  cases body with
  | nil =>
    simp [writeEvents, run, step, Send_handler, TsQueue.empty, TsQueue.push_back, WriteHeader,
      TsQueue.front, WriteHeader_completion, popAndContinue, TsQueue.pop_front, WriteOp.bytes,
      wireBytes]
  | cons b bs =>
    simp [writeEvents, run, step, Send_handler, TsQueue.empty, TsQueue.push_back, WriteHeader,
      TsQueue.front, WriteHeader_completion, popAndContinue, TsQueue.pop_front, WriteOp.bytes,
      wireBytes, WriteBody, WriteBody_completion]

theorem recvStep_header (c : connection) (rest : List ReadOp) (hdr : sMessageHeader)
    (body : List Byte) (hid : hdr.id < 2 ^ 16) (hsz : hdr.size < 2 ^ 16)
    (hreads : c.reads = ReadOp.header :: rest) :
    recvStep c (encodeHeader hdr ++ body)
      = some (ReadHeader_completion
          { c with reads := rest,
                   m_msgTemporaryIn := { c.m_msgTemporaryIn with header := hdr } } false,
          body) := by
  have htake : List.take sizeofHeader (encodeHeader hdr ++ body) = encodeHeader hdr := by
    rw [List.take_append_of_le_length (by simp [encodeHeader_length])]
    exact List.take_of_length_le (by simp [encodeHeader_length])
  have hdrop : List.drop sizeofHeader (encodeHeader hdr ++ body) = body := by
    rw [List.drop_append_of_le_length (by simp [encodeHeader_length])]
    simp [List.drop_of_length_le, encodeHeader_length]
  have hle : sizeofHeader ≤ (encodeHeader hdr ++ body).length := by
    simp [encodeHeader_length]
  simp only [recvStep, hreads, ReadOp.count, hle, if_true, htake, hdrop, step, List.get?_cons_zero,
    Bool.false_eq_true, if_false, encodeHeader_length, List.eraseIdx_cons_zero,
    decodeHeader_encodeHeader hdr hid hsz]

theorem recvStep_body (c : connection) (rest : List ReadOp) (body : List Byte)
    (hreads : c.reads = ReadOp.body body.length :: rest)
    (hbuf : c.m_msgTemporaryIn.body.length = body.length) :
    recvStep c body
      = some (ReadBody_completion
          { c with reads := rest,
                   m_msgTemporaryIn := { c.m_msgTemporaryIn with body := body } } false,
          []) := by
  have hcp : memcpyTo c.m_msgTemporaryIn.body 0 body = body := by
    simp [memcpyTo, List.drop_of_length_le, hbuf]
  simp only [recvStep, hreads, ReadOp.count, le_refl, if_true, List.take_length, List.drop_length,
    step, List.get?_cons_zero, Bool.false_eq_true, if_false, List.eraseIdx_cons_zero, hcp]

theorem recvStep_starved (c : connection) (hreads : c.reads = [ReadOp.header]) :
    recvStep c [] = none := by
  simp [recvStep, hreads, ReadOp.count, sizeofHeader]

theorem recv_wireBytes (receiver : connection) (m : sMessage) (hrep : m.Representable)
    (hsize : m.header.size = m.body.length) (hreads : receiver.reads = [ReadOp.header])
    (hbody : receiver.m_msgTemporaryIn.body = []) (fuel : Nat) :
    recv (fuel + 2) receiver (wireBytes m)
      = ({ receiver with
            m_msgTemporaryIn := m,
            m_qMessagesIn := receiver.m_qMessagesIn.push_back
              { remote := if receiver.m_nOwnerType = owner.server then some receiver.self
                          else none,
                message := m } }, []) := by
  obtain ⟨self, so, out, qin, ⟨thdr, tbody⟩, ow, id, rd, wr, wire⟩ := receiver
  simp only at hreads hbody
  subst hreads hbody
  obtain ⟨hdr, body⟩ := m
  simp only at hsize
  rw [wireBytes, recv, recvStep_header _ [] hdr body hrep.1 hrep.2 rfl]
  cases body with
  | nil =>
    have h0 : hdr.size = 0 := by simpa using hsize
    simp only [ReadHeader_completion, h0, Bool.not_false, if_true, gt_iff_lt, lt_self_iff_false,
      if_false]
    rw [recv.eq_def]
    cases fuel <;> cases ow <;>
      simp [recvStep_starved, AddToIncomingMessageQueue, ReadHeader]
  | cons b bs =>
    have hpos : hdr.size > 0 := by simp [hsize]
    simp only [ReadHeader_completion, hpos, Bool.not_false, if_true]
    rw [recv, recvStep_body _ [] (b :: bs) (by simp [ReadBody, resize, hsize])
      (by simp [ReadBody, resize, hsize])]
    dsimp only
    rw [recv.eq_def]
    cases fuel <;> cases ow <;>
      simp [recvStep_starved, AddToIncomingMessageQueue, ReadHeader, ReadBody_completion, ReadBody]

/-! ## Frame lemmas: what each kind of handler leaves alone -/

theorem WriteHeader_frame (c c1 : connection) (h : WriteHeader c = some c1) :
    c1.reads = c.reads ∧ c1.m_qMessagesIn = c.m_qMessagesIn ∧ c1.socketOpen = c.socketOpen
      ∧ c1.m_qMessagesOut = c.m_qMessagesOut ∧ c1.wire = c.wire
      ∧ ∃ m, c.m_qMessagesOut.front = some m
          ∧ c1.writes = c.writes ++ [WriteOp.header (encodeHeader m.header)] := by
  unfold WriteHeader at h
  split at h
  · exact absurd h (by simp)
  · rename_i m hm
    cases h
    exact ⟨rfl, rfl, rfl, rfl, rfl, m, hm, rfl⟩

theorem WriteBody_frame (c c1 : connection) (h : WriteBody c = some c1) :
    c1.reads = c.reads ∧ c1.m_qMessagesIn = c.m_qMessagesIn ∧ c1.socketOpen = c.socketOpen
      ∧ c1.m_qMessagesOut = c.m_qMessagesOut ∧ c1.wire = c.wire
      ∧ ∃ m, c.m_qMessagesOut.front = some m ∧ c1.writes = c.writes ++ [WriteOp.body m.body] := by
  unfold WriteBody at h
  split at h
  · exact absurd h (by simp)
  · rename_i m hm
    cases h
    exact ⟨rfl, rfl, rfl, rfl, rfl, m, hm, rfl⟩

theorem popAndContinue_frame (c c1 : connection) (h : popAndContinue c = some c1) :
    c1.reads = c.reads ∧ c1.m_qMessagesIn = c.m_qMessagesIn ∧ c1.socketOpen = c.socketOpen
      ∧ c1.wire = c.wire
      ∧ ∃ m rest, c.m_qMessagesOut.myDeque = m :: rest ∧ c1.m_qMessagesOut.myDeque = rest
          ∧ c1.writes = c.writes ++
              (match rest with
               | [] => []
               | m1 :: _ => [WriteOp.header (encodeHeader m1.header)]) := by
  unfold popAndContinue at h
  split at h
  · exact absurd h (by simp)
  · rename_i x q hq
    simp only [TsQueue.pop_front] at hq
    split at hq
    · exact absurd hq (by simp)
    · rename_i m rest hm
      simp only [Option.some.injEq, Prod.mk.injEq] at hq
      obtain ⟨-, rfl⟩ := hq
      cases rest with
      | nil =>
        simp only [TsQueue.empty, List.isEmpty_nil, Bool.not_true, Bool.false_eq_true, if_false,
          Option.some.injEq] at h
        subst h
        exact ⟨rfl, rfl, rfl, rfl, m, [], hm, rfl, by simp⟩
      | cons m1 rest1 =>
        simp only [TsQueue.empty, List.isEmpty_cons, Bool.not_false, if_true] at h
        obtain ⟨h1, h2, h3, h4, h5, m2, hf, hw⟩ := WriteHeader_frame _ _ h
        simp only [TsQueue.front, List.head?_cons, Option.some.injEq] at hf
        subst hf
        exact ⟨h1, h2, h3, h5, m, m1 :: rest1, hm, by rw [h4], hw⟩

theorem step_send_frame (c c1 : connection) (msg : sMessage)
    (h : step c (Event.send msg) = some c1) :
    c1.reads = c.reads ∧ c1.m_qMessagesIn = c.m_qMessagesIn ∧ c1.socketOpen = c.socketOpen
      ∧ c1.wire = c.wire
      ∧ c1.m_qMessagesOut.myDeque = c.m_qMessagesOut.myDeque ++ [msg]
      ∧ c1.writes = if c.m_qMessagesOut.empty
          then c.writes ++ [WriteOp.header (encodeHeader msg.header)] else c.writes := by
  simp only [step, Send_handler] at h
  cases hq : c.m_qMessagesOut.myDeque with
  | nil =>
    simp only [TsQueue.empty, hq, List.isEmpty_nil, Bool.not_true, Bool.not_false, if_true] at h
    obtain ⟨h1, h2, h3, h4, h5, m2, hf, hw⟩ := WriteHeader_frame _ _ h
    simp only [TsQueue.front, TsQueue.push_back, hq, List.nil_append, List.head?_cons,
      Option.some.injEq] at hf
    subst hf
    refine ⟨h1, h2, h3, h5, ?_, ?_⟩
    · rw [h4]; simp [TsQueue.push_back, hq]
    · simpa [TsQueue.empty, hq] using hw
  | cons m0 rest =>
    simp only [TsQueue.empty, hq, List.isEmpty_cons, Bool.not_false, Bool.not_true,
      Bool.false_eq_true, if_false, Option.some.injEq] at h
    subst h
    simp [TsQueue.push_back, TsQueue.empty, hq]

theorem step_readDone_frame (c c1 : connection) (i : Nat) (ec : Bool) (data : List Byte)
    (h : step c (Event.readDone i ec data) = some c1) :
    c1.writes = c.writes ∧ c1.m_qMessagesOut = c.m_qMessagesOut ∧ c1.wire = c.wire := by
  simp only [step] at h
  split at h
  · exact absurd h (by simp)
  · rename_i op hop
    cases op <;> cases ec <;>
      simp only [Bool.false_eq_true, if_false, if_true, ReadHeader_completion,
        ReadBody_completion, Bool.not_false, Bool.not_true, Option.some.injEq] at h
    all_goals first
      | (subst h; exact ⟨rfl, rfl, rfl⟩)
      | (split at h
         · simp only [Option.some.injEq] at h
           subst h
           simp only [AddToIncomingMessageQueue, ReadHeader, ReadBody]
           repeat' split
           all_goals exact ⟨rfl, rfl, rfl⟩
         · exact absurd h (by simp))

theorem step_writeDone_spec (c c1 : connection) (i : Nat) (ec : Bool)
    (h : step c (Event.writeDone i ec) = some c1) :
    ∃ op, c.writes.get? i = some op
      ∧ c1.reads = c.reads ∧ c1.m_qMessagesIn = c.m_qMessagesIn
      ∧ (ec = true → c1.writes = c.writes.eraseIdx i ∧ c1.m_qMessagesOut = c.m_qMessagesOut
          ∧ c1.wire = c.wire ∧ c1.socketOpen = false)
      ∧ (ec = false → c1.socketOpen = c.socketOpen ∧ c1.wire = c.wire ++ op.bytes
          ∧ ∃ m rest, c.m_qMessagesOut.myDeque = m :: rest
            ∧ ((∃ hb, op = WriteOp.header hb ∧ m.body ≠ []
                  ∧ c1.m_qMessagesOut = c.m_qMessagesOut
                  ∧ c1.writes = c.writes.eraseIdx i ++ [WriteOp.body m.body])
              ∨ (((∃ bb, op = WriteOp.body bb) ∨ m.body = [])
                  ∧ c1.m_qMessagesOut.myDeque = rest
                  ∧ c1.writes = c.writes.eraseIdx i ++
                      (match rest with
                       | [] => []
                       | m1 :: _ => [WriteOp.header (encodeHeader m1.header)])))) := by
  simp only [step] at h
  split at h
  · exact absurd h (by simp)
  · rename_i op hop
    refine ⟨op, hop, ?_⟩
    cases ec with
    | true =>
      cases op <;>
        simp only [WriteHeader_completion, WriteBody_completion, Bool.not_true,
          Bool.false_eq_true, if_false, if_true, Option.some.injEq] at h <;>
        (subst h; simp)
    | false =>
      cases op with
      | header hb =>
        simp only [WriteHeader_completion, Bool.not_false, if_true, Bool.false_eq_true,
          if_false] at h
        split at h
        · exact absurd h (by simp)
        · rename_i m hm
          have hfront : ∃ rest, c.m_qMessagesOut.myDeque = m :: rest := by
            simp only [TsQueue.front] at hm
            cases hd : c.m_qMessagesOut.myDeque with
            | nil => simp [hd] at hm
            | cons a rest => simp [hd] at hm; exact ⟨rest, by rw [hm]⟩
          obtain ⟨rest, hrest⟩ := hfront
          split at h
          · rename_i hpos
            obtain ⟨h1, h2, h3, h4, h5, m2, hf, hw⟩ := WriteBody_frame _ _ h
            rw [hm] at hf
            cases hf
            refine ⟨h1, h2, by simp, fun _ => ⟨h3, h5, m, rest, hrest, Or.inl ⟨hb, rfl, ?_, h4, hw⟩⟩⟩
            intro hnil
            simp [hnil] at hpos
          · rename_i hpos
            obtain ⟨h1, h2, h3, h4, m2, rest2, hq, hq1, hw⟩ := popAndContinue_frame _ _ h
            simp only [hrest, List.cons.injEq] at hq
            obtain ⟨rfl, rfl⟩ := hq
            refine ⟨h1, h2, by simp, fun _ => ⟨h3, h4, m, rest, hrest,
              Or.inr ⟨Or.inr ?_, hq1, hw⟩⟩⟩
            simpa [List.length_eq_zero] using hpos
      | body bb =>
        simp only [WriteBody_completion, Bool.not_false, if_true, Bool.false_eq_true,
          if_false] at h
        obtain ⟨h1, h2, h3, h4, m2, rest2, hq, hq1, hw⟩ := popAndContinue_frame _ _ h
        exact ⟨h1, h2, by simp, fun _ => ⟨h3, h4, m2, rest2, hq,
          Or.inr ⟨Or.inl ⟨bb, rfl⟩, hq1, hw⟩⟩⟩

/-! ## The write chain: one write at a time, first in first out -/

theorem get?_of_length_le_one {α : Type} (l : List α) (i : Nat) (x : α) (hlen : l.length ≤ 1)
    (h : l.get? i = some x) : l = [x] ∧ i = 0 ∧ l.eraseIdx i = [] := by
  match l, i with
  | [], _ => simp at h
  | [a], 0 => simp at h; simp [h]
  | [a], i + 1 => simp at h
  | a :: b :: l, _ => simp at hlen

theorem step_write_invariant (c c1 : connection) (e : Event) (hlen : c.writes.length ≤ 1)
    (hne : c.writes ≠ [] → c.m_qMessagesOut.myDeque ≠ []) (h : step c e = some c1) :
    c1.writes.length ≤ 1 ∧ (c1.writes ≠ [] → c1.m_qMessagesOut.myDeque ≠ []) := by
  cases e with
  | send msg =>
    obtain ⟨-, -, -, -, hq, hw⟩ := step_send_frame c c1 msg h
    refine ⟨?_, fun _ => by simp [hq]⟩
    rw [hw]
    by_cases hemp : c.m_qMessagesOut.myDeque = []
    · have hw0 : c.writes = [] := by
        by_contra hcon
        exact hne hcon hemp
      simp [TsQueue.empty, hemp, hw0]
    · have : c.m_qMessagesOut.empty = false := by
        simp only [TsQueue.empty, List.isEmpty_eq_false]; exact hemp
      simpa [this] using hlen
  | readDone i ec data =>
    obtain ⟨hw, hq, -⟩ := step_readDone_frame c c1 i ec data h
    rw [hw, hq]
    exact ⟨hlen, hne⟩
  | writeDone i ec =>
    obtain ⟨op, hop, -, -, hfail, hok⟩ := step_writeDone_spec c c1 i ec h
    obtain ⟨hw, hi, herase⟩ := get?_of_length_le_one _ _ _ hlen hop
    cases ec with
    | true =>
      obtain ⟨h1, -, -, -⟩ := hfail rfl
      rw [h1, herase]
      exact ⟨by simp, fun hcon => absurd rfl hcon⟩
    | false =>
      obtain ⟨-, -, m, rest, hq, hcase⟩ := hok rfl
      rcases hcase with ⟨hb, -, -, hq1, hw1⟩ | ⟨-, hq1, hw1⟩
      · rw [hw1, herase, hq1, hq]
        exact ⟨by simp, fun _ => by simp⟩
      · rw [hw1, herase, hq1]
        cases rest <;> simp

theorem run_write_invariant (evs : List Event) (c c1 : connection) (hlen : c.writes.length ≤ 1)
    (hne : c.writes ≠ [] → c.m_qMessagesOut.myDeque ≠ []) (h : run c evs = some c1) :
    c1.writes.length ≤ 1 ∧ (c1.writes ≠ [] → c1.m_qMessagesOut.myDeque ≠ []) := by
  induction evs generalizing c with
  | nil =>
    simp only [run, Option.some.injEq] at h
    subst h
    exact ⟨hlen, hne⟩
  | cons e es ih =>
    simp only [run] at h
    split at h
    · exact absurd h (by simp)
    · rename_i c2 hstep
      obtain ⟨h1, h2⟩ := step_write_invariant c c2 e hlen hne hstep
      exact ih c2 h1 h2 h

theorem flatWire_append (xs ys : List sMessage) :
    flatWire (xs ++ ys) = flatWire xs ++ flatWire ys := by
  simp [flatWire]

theorem flatWire_cons (m : sMessage) (ms : List sMessage) :
    flatWire (m :: ms) = encodeHeader m.header ++ (m.body ++ flatWire ms) := by
  simp [flatWire, wireBytes]

theorem flatWire_singleton (m : sMessage) : flatWire [m] = wireBytes m := by
  simp [flatWire]

theorem step_WireInv (c c1 : connection) (e : Event) (total : List Byte)
    (hinv : WireInv c total) (hok : e.isWriteFailure = false) (h : step c e = some c1) :
    WireInv c1 (total ++ e.wireBytes) := by
  cases e with
  | send msg =>
    obtain ⟨-, -, -, hwire, hq, hw⟩ := step_send_frame c c1 msg h
    simp only [Event.wireBytes]
    rcases hinv with ⟨hw0, hq0, hwire0⟩ | ⟨m, rest, hq0, hw0, hwire0⟩ | ⟨m, rest, hq0, hw0, hwire0⟩
    · refine Or.inr (Or.inl ⟨msg, [], ?_, ?_, ?_⟩)
      · simp [hq, hq0]
      · simp [hw, TsQueue.empty, hq0, hw0]
      · rw [hwire, hwire0, flatWire_singleton]
    · refine Or.inr (Or.inl ⟨m, rest ++ [msg], ?_, ?_, ?_⟩)
      · simp [hq, hq0]
      · simp [hw, TsQueue.empty, hq0, hw0]
      · rw [hwire, ← hwire0, ← List.cons_append, flatWire_append, flatWire_singleton,
          List.append_assoc]
    · refine Or.inr (Or.inr ⟨m, rest ++ [msg], ?_, ?_, ?_⟩)
      · simp [hq, hq0]
      · simp [hw, TsQueue.empty, hq0, hw0]
      · rw [hwire, ← hwire0, flatWire_append, flatWire_singleton]
        simp only [List.append_assoc]
  | readDone i ec data =>
    obtain ⟨hw, hq, hwire⟩ := step_readDone_frame c c1 i ec data h
    simp only [Event.wireBytes, List.append_nil]
    unfold WireInv
    rw [hw, hq, hwire]
    exact hinv
  | writeDone i ec =>
    cases ec with
    | true => simp [Event.isWriteFailure] at hok
    | false =>
      obtain ⟨op, hop, -, -, -, hsucc⟩ := step_writeDone_spec c c1 i false h
      obtain ⟨-, hwire, m1, rest1, hq1, hcase⟩ := hsucc rfl
      simp only [Event.wireBytes, List.append_nil]
      rcases hinv with ⟨hw0, hq0, hwire0⟩ | ⟨m, rest, hq0, hw0, hwire0⟩ | ⟨m, rest, hq0, hw0, hwire0⟩
      · simp [hw0] at hop
      · rw [hq0] at hq1
        simp only [List.cons.injEq] at hq1
        obtain ⟨rfl, rfl⟩ := hq1
        obtain ⟨hwl, hi, herase⟩ := get?_of_length_le_one c.writes i op (by simp [hw0]) hop
        have hopeq : op = WriteOp.header (encodeHeader m.header) := by
          rw [hw0] at hwl; simpa using hwl.symm
        subst hopeq
        rw [flatWire_cons] at hwire0
        rcases hcase with ⟨hb, -, -, hq2, hw2⟩ | ⟨hcase1, hq2, hw2⟩
        · refine Or.inr (Or.inr ⟨m, rest, by rw [hq2, hq0], by rw [hw2, herase]; rfl, ?_⟩)
          rw [hwire, ← hwire0]
          simp [WriteOp.bytes]
        · have hbody : m.body = [] := by
            rcases hcase1 with ⟨bb, hbb⟩ | hb
            · cases hbb
            · exact hb
          rw [hbody, List.nil_append] at hwire0
          cases rest with
          | nil =>
            refine Or.inl ⟨by rw [hw2, herase]; rfl, hq2, ?_⟩
            rw [hwire, ← hwire0]
            simp [WriteOp.bytes, flatWire]
          | cons m2 rest2 =>
            refine Or.inr (Or.inl ⟨m2, rest2, hq2, by rw [hw2, herase]; rfl, ?_⟩)
            rw [hwire, ← hwire0]
            simp [WriteOp.bytes]
      · rw [hq0] at hq1
        simp only [List.cons.injEq] at hq1
        obtain ⟨rfl, rfl⟩ := hq1
        obtain ⟨hwl, hi, herase⟩ := get?_of_length_le_one c.writes i op (by simp [hw0]) hop
        have hopeq : op = WriteOp.body m.body := by
          rw [hw0] at hwl; simpa using hwl.symm
        subst hopeq
        rcases hcase with ⟨hb, hcon, -, -, -⟩ | ⟨-, hq2, hw2⟩
        · cases hcon
        · cases rest with
          | nil =>
            refine Or.inl ⟨by rw [hw2, herase]; rfl, hq2, ?_⟩
            rw [hwire, ← hwire0]
            simp [WriteOp.bytes, flatWire]
          | cons m2 rest2 =>
            refine Or.inr (Or.inl ⟨m2, rest2, hq2, by rw [hw2, herase]; rfl, ?_⟩)
            rw [hwire, ← hwire0]
            simp [WriteOp.bytes]

theorem run_WireInv (evs : List Event) (c c1 : connection) (total : List Byte)
    (hinv : WireInv c total) (hok : noWriteFailure evs = true) (h : run c evs = some c1) :
    WireInv c1 (total ++ flatWire (sentMessages evs)) := by
  induction evs generalizing c total with
  | nil =>
    simp only [run, Option.some.injEq] at h
    subst h
    simpa [sentMessages, flatWire] using hinv
  | cons e es ih =>
    simp only [run] at h
    split at h
    · exact absurd h (by simp)
    · rename_i c2 hstep
      simp only [noWriteFailure, List.all_cons, Bool.and_eq_true, Bool.not_eq_true'] at hok
      have h2 := step_WireInv c c2 e total hinv hok.1 hstep
      have h3 := ih c2 _ h2 (by simpa [noWriteFailure] using hok.2) h
      have heq : total ++ e.wireBytes ++ flatWire (sentMessages es)
          = total ++ flatWire (sentMessages (e :: es)) := by
        cases e <;> simp [Event.wireBytes, sentMessages, Event.sent, flatWire]
      rw [← heq]
      exact h3

theorem step_writeDone_progress (c : connection) (op : WriteOp) (m : sMessage)
    (rest : List sMessage) (hw : c.writes = [op]) (hq : c.m_qMessagesOut.myDeque = m :: rest) :
    ∃ c1, step c (Event.writeDone 0 false) = some c1 := by
  obtain ⟨self, so, ⟨out⟩, qin, tmp, ow, id, rd, wr, wire⟩ := c
  simp only at hw hq
  subst hw hq
  obtain ⟨hdr, body⟩ := m
  cases op <;> cases body <;> cases rest <;>
    simp [step, WriteHeader_completion, WriteBody_completion, popAndContinue, TsQueue.pop_front,
      TsQueue.front, TsQueue.empty, WriteHeader, WriteBody]

theorem run_append (c : connection) (xs ys : List Event) :
    run c (xs ++ ys) = (run c xs).bind (fun c1 => run c1 ys) := by
  induction xs generalizing c with
  | nil => rfl
  | cons e es ih =>
    simp only [List.cons_append, run]
    cases step c e with
    | none => rfl
    | some c1 => exact ih c1

theorem drain_front (c : connection) (total : List Byte) (m : sMessage) (rest : List sMessage)
    (hinv : WireInv c total) (hq : c.m_qMessagesOut.myDeque = m :: rest) :
    ∃ k c1, run c (List.replicate k (Event.writeDone 0 false)) = some c1
      ∧ WireInv c1 total ∧ c1.m_qMessagesOut.myDeque = rest
      ∧ (c1.writes = [] ∨ ∃ hb, c1.writes = [WriteOp.header hb]) := by
  have hpop : ∀ (d : connection) (bb : List Byte) (m0 : sMessage), WireInv d total →
      d.writes = [WriteOp.body bb] → d.m_qMessagesOut.myDeque = m0 :: rest →
      ∃ d1, step d (Event.writeDone 0 false) = some d1 ∧ WireInv d1 total
        ∧ d1.m_qMessagesOut.myDeque = rest
        ∧ (d1.writes = [] ∨ ∃ hb, d1.writes = [WriteOp.header hb]) := by
    intro d bb m0 hd hdw hdq
    obtain ⟨d1, hstep⟩ := step_writeDone_progress d _ m0 rest hdw hdq
    have hinv1 := step_WireInv d d1 (Event.writeDone 0 false) total hd rfl hstep
    simp only [Event.wireBytes, List.append_nil] at hinv1
    obtain ⟨op, hop, -, -, -, hsucc⟩ := step_writeDone_spec d d1 0 false hstep
    obtain ⟨-, -, m1, rest1, hq1, hcase⟩ := hsucc rfl
    rw [hdq] at hq1
    simp only [List.cons.injEq] at hq1
    obtain ⟨rfl, rfl⟩ := hq1
    have hopeq : op = WriteOp.body bb := by
      rw [hdw] at hop; simpa using hop.symm
    rcases hcase with ⟨hb, hcon, -⟩ | ⟨-, hq2, hw2⟩
    · rw [hopeq] at hcon; cases hcon
    · refine ⟨d1, hstep, hinv1, hq2, ?_⟩
      rw [hw2, hdw]
      cases rest <;> simp
  rcases hinv with ⟨-, hq0, -⟩ | ⟨m1, rest1, hq0, hw0, hwire0⟩ | ⟨m1, rest1, hq0, hw0, hwire0⟩
  · rw [hq] at hq0; cases hq0
  · obtain ⟨c1, hstep⟩ := step_writeDone_progress c _ m rest hw0 hq
    have hinv1 := step_WireInv c c1 (Event.writeDone 0 false) total
      (Or.inr (Or.inl ⟨m1, rest1, hq0, hw0, hwire0⟩)) rfl hstep
    simp only [Event.wireBytes, List.append_nil] at hinv1
    obtain ⟨op, hop, -, -, -, hsucc⟩ := step_writeDone_spec c c1 0 false hstep
    obtain ⟨-, -, m2, rest2, hq1, hcase⟩ := hsucc rfl
    rw [hq] at hq1
    simp only [List.cons.injEq] at hq1
    obtain ⟨rfl, rfl⟩ := hq1
    rcases hcase with ⟨hb, -, -, hq2, hw2⟩ | ⟨-, hq2, hw2⟩
    · have hw3 : c1.writes = [WriteOp.body m.body] := by rw [hw2, hw0]; rfl
      obtain ⟨d1, hstep1, hinv2, hq3, hshape⟩ := hpop c1 _ m hinv1 hw3 (by rw [hq2, hq])
      exact ⟨2, d1, by simp only [List.replicate, run, hstep, hstep1], hinv2, hq3, hshape⟩
    · refine ⟨1, c1, by simp only [List.replicate, run, hstep], hinv1, hq2, ?_⟩
      rw [hw2, hw0]
      cases rest <;> simp
  · obtain ⟨d1, hstep1, hinv2, hq3, hshape⟩ :=
      hpop c _ m (Or.inr (Or.inr ⟨m1, rest1, hq0, hw0, hwire0⟩)) hw0 hq
    exact ⟨1, d1, by simp only [List.replicate, run, hstep1], hinv2, hq3, hshape⟩

theorem drain_all (n : Nat) (c : connection) (total : List Byte) (hinv : WireInv c total)
    (hlen : c.m_qMessagesOut.myDeque.length = n) :
    ∃ k c1, run c (List.replicate k (Event.writeDone 0 false)) = some c1
      ∧ c1.m_qMessagesOut.myDeque = [] ∧ c1.writes = [] ∧ c1.wire = total := by
  induction n generalizing c with
  | zero =>
    have hq : c.m_qMessagesOut.myDeque = [] := List.length_eq_zero.mp hlen
    rcases hinv with ⟨hw0, -, hwire0⟩ | ⟨m1, rest1, hq0, -⟩ | ⟨m1, rest1, hq0, -⟩
    · exact ⟨0, c, rfl, hq, hw0, hwire0⟩
    · rw [hq] at hq0; cases hq0
    · rw [hq] at hq0; cases hq0
  | succ n ih =>
    obtain ⟨m, rest, hq⟩ : ∃ m rest, c.m_qMessagesOut.myDeque = m :: rest := by
      cases hd : c.m_qMessagesOut.myDeque with
      | nil => rw [hd] at hlen; cases hlen
      | cons m rest => exact ⟨m, rest, rfl⟩
    obtain ⟨k1, c1, hrun1, hinv1, hq1, -⟩ := drain_front c total m rest hinv hq
    have hlen1 : c1.m_qMessagesOut.myDeque.length = n := by
      rw [hq1]; rw [hq] at hlen; simpa using hlen
    obtain ⟨k2, c2, hrun2, hfin⟩ := ih c1 hinv1 hlen1
    refine ⟨k1 + k2, c2, ?_, hfin⟩
    rw [List.replicate_add, run_append, hrun1]
    exact hrun2

/-! ## The read chain: an error halts it -/

theorem step_readDone_spec (c c1 : connection) (i : Nat) (ec : Bool) (data : List Byte)
    (h : step c (Event.readDone i ec data) = some c1) :
    ∃ op, c.reads.get? i = some op
      ∧ (ec = true → c1.reads = c.reads.eraseIdx i ∧ c1.socketOpen = false
          ∧ c1.m_qMessagesIn = c.m_qMessagesIn)
      ∧ (ec = false → c1.reads.length = (c.reads.eraseIdx i).length + 1
          ∧ c1.socketOpen = c.socketOpen) := by
  simp only [step] at h
  split at h
  · exact absurd h (by simp)
  · rename_i op hop
    refine ⟨op, hop, ?_⟩
    cases op <;> cases ec <;>
      simp only [Bool.false_eq_true, if_false, if_true, ReadHeader_completion,
        ReadBody_completion, Bool.not_false, Bool.not_true, Option.some.injEq] at h
    all_goals first
      | (subst h; simp)
      | (split at h
         · simp only [Option.some.injEq] at h
           subst h
           simp only [AddToIncomingMessageQueue, ReadHeader, ReadBody]
           repeat' split
           all_goals simp
         · exact absurd h (by simp))

theorem step_reads_le_one (c c1 : connection) (e : Event) (hlen : c.reads.length ≤ 1)
    (h : step c e = some c1) : c1.reads.length ≤ 1 := by
  cases e with
  | send msg =>
    obtain ⟨hr, -⟩ := step_send_frame c c1 msg h
    rw [hr]; exact hlen
  | readDone i ec data =>
    obtain ⟨op, hop, hfail, hok⟩ := step_readDone_spec c c1 i ec data h
    obtain ⟨-, -, herase⟩ := get?_of_length_le_one _ _ _ hlen hop
    cases ec with
    | true => rw [(hfail rfl).1, herase]; simp
    | false => rw [(hok rfl).1, herase]; simp
  | writeDone i ec =>
    obtain ⟨op, -, hr, -⟩ := step_writeDone_spec c c1 i ec h
    rw [hr]; exact hlen

theorem run_reads_le_one (evs : List Event) (c c1 : connection) (hlen : c.reads.length ≤ 1)
    (h : run c evs = some c1) : c1.reads.length ≤ 1 := by
  induction evs generalizing c with
  | nil =>
    simp only [run, Option.some.injEq] at h
    subst h
    exact hlen
  | cons e es ih =>
    simp only [run] at h
    split at h
    · exact absurd h (by simp)
    · rename_i c2 hstep
      exact ih c2 (step_reads_le_one c c2 e hlen hstep) h

theorem step_halted (c c1 : connection) (e : Event) (hreads : c.reads = [])
    (hclosed : c.socketOpen = false) (h : step c e = some c1) :
    c1.reads = [] ∧ c1.socketOpen = false ∧ c1.m_qMessagesIn = c.m_qMessagesIn := by
  cases e with
  | send msg =>
    obtain ⟨hr, hq, hs, -⟩ := step_send_frame c c1 msg h
    exact ⟨by rw [hr, hreads], by rw [hs, hclosed], hq⟩
  | readDone i ec data =>
    obtain ⟨op, hop, -⟩ := step_readDone_spec c c1 i ec data h
    simp [hreads] at hop
  | writeDone i ec =>
    obtain ⟨op, -, hr, hq, hfail, hok⟩ := step_writeDone_spec c c1 i ec h
    refine ⟨by rw [hr, hreads], ?_, hq⟩
    cases ec with
    | true => exact (hfail rfl).2.2.2
    | false => rw [(hok rfl).1, hclosed]

theorem run_halted (evs : List Event) (c c1 : connection) (hreads : c.reads = [])
    (hclosed : c.socketOpen = false) (h : run c evs = some c1) :
    c1.reads = [] ∧ c1.socketOpen = false ∧ c1.m_qMessagesIn = c.m_qMessagesIn := by
  induction evs generalizing c with
  | nil =>
    simp only [run, Option.some.injEq] at h
    subst h
    exact ⟨hreads, hclosed, rfl⟩
  | cons e es ih =>
    simp only [run] at h
    split at h
    · exact absurd h (by simp)
    · rename_i c2 hstep
      obtain ⟨h1, h2, h3⟩ := step_halted c c2 e hreads hclosed hstep
      obtain ⟨h4, h5, h6⟩ := ih c2 h1 h2 h
      exact ⟨h4, h5, by rw [h6, h3]⟩

theorem resize_length (v : List Byte) (n : Nat) : (resize v n).length = n := by
  simp only [resize, List.length_append, List.length_take, List.length_replicate]
  omega

theorem memcpyTo_whole (dst data : List Byte) (h : dst.length = data.length) :
    memcpyTo dst 0 data = data := by
  simp [memcpyTo, List.drop_of_length_le, h]

theorem step_send_assembly (c c1 : connection) (msg : sMessage)
    (h : step c (Event.send msg) = some c1) :
    c1.m_msgTemporaryIn = c.m_msgTemporaryIn := by
  simp only [step, Send_handler] at h
  split at h
  · simp only [WriteHeader] at h
    split at h
    · exact absurd h (by simp)
    · cases h; rfl
  · cases h; rfl

theorem popAndContinue_assembly (c c1 : connection) (h : popAndContinue c = some c1) :
    c1.m_msgTemporaryIn = c.m_msgTemporaryIn := by
  simp only [popAndContinue] at h
  split at h
  · exact absurd h (by simp)
  · split at h
    · simp only [WriteHeader] at h
      split at h
      · exact absurd h (by simp)
      · cases h; rfl
    · cases h; rfl

theorem step_writeDone_assembly (c c1 : connection) (i : Nat) (ec : Bool)
    (h : step c (Event.writeDone i ec) = some c1) :
    c1.m_msgTemporaryIn = c.m_msgTemporaryIn := by
  simp only [step] at h
  split at h
  · exact absurd h (by simp)
  · rename_i op hop
    cases ec with
    | true =>
      cases op <;>
        simp only [WriteHeader_completion, WriteBody_completion, Bool.not_true,
          Bool.false_eq_true, if_false, if_true, Option.some.injEq] at h <;>
        (subst h; rfl)
    | false =>
      cases op with
      | header hb =>
        simp only [WriteHeader_completion, Bool.not_false, if_true, Bool.false_eq_true,
          if_false] at h
        split at h
        · exact absurd h (by simp)
        · split at h
          · simp only [WriteBody] at h
            split at h
            · exact absurd h (by simp)
            · cases h; rfl
          · exact (popAndContinue_assembly _ _ h).trans rfl
      | body bb =>
        simp only [WriteBody_completion, Bool.not_false, if_true, Bool.false_eq_true,
          if_false] at h
        exact (popAndContinue_assembly _ _ h).trans rfl

theorem step_readHeader_ok (c c1 : connection) (i : Nat) (data : List Byte)
    (hreads : c.reads = [ReadOp.header])
    (h : step c (Event.readDone i false data) = some c1) :
    data.length = sizeofHeader
      ∧ c1 = ReadHeader_completion
          { c with reads := [],
                   m_msgTemporaryIn := { c.m_msgTemporaryIn with header := decodeHeader data } }
          false := by
  simp only [step, hreads] at h
  cases i with
  | succ j => simp at h
  | zero =>
    simp only [List.get?_cons_zero, Bool.false_eq_true, if_false, ReadOp.count,
      List.eraseIdx_cons_zero] at h
    split at h
    · rename_i hlen
      exact ⟨hlen, (Option.some.inj h).symm⟩
    · exact absurd h (by simp)

theorem step_readBody_ok (c c1 : connection) (i n : Nat) (data : List Byte)
    (hreads : c.reads = [ReadOp.body n])
    (h : step c (Event.readDone i false data) = some c1) :
    data.length = n
      ∧ c1 = ReadBody_completion
          { c with reads := [],
                   m_msgTemporaryIn :=
                     { c.m_msgTemporaryIn with
                       body := memcpyTo c.m_msgTemporaryIn.body 0 data } }
          false := by
  simp only [step, hreads] at h
  cases i with
  | succ j => simp at h
  | zero =>
    simp only [List.get?_cons_zero, Bool.false_eq_true, if_false, ReadOp.count,
      List.eraseIdx_cons_zero] at h
    split at h
    · rename_i hlen
      exact ⟨hlen, (Option.some.inj h).symm⟩
    · exact absurd h (by simp)

theorem AddToIncomingMessageQueue_spec (c : connection) :
    ∃ d, (AddToIncomingMessageQueue c).m_qMessagesIn.myDeque = c.m_qMessagesIn.myDeque ++ [d]
      ∧ d.message = c.m_msgTemporaryIn
      ∧ (AddToIncomingMessageQueue c).reads = c.reads ++ [ReadOp.header] := by
  simp only [AddToIncomingMessageQueue, ReadHeader]
  split
  · exact ⟨_, rfl, rfl, rfl⟩
  · exact ⟨_, rfl, rfl, rfl⟩

theorem ReadInv_of_frame (c c2 : connection) (ph : ReadPhase) (hr : c2.reads = c.reads)
    (ht : c2.m_msgTemporaryIn = c.m_msgTemporaryIn) (hne : ph ≠ ReadPhase.halted)
    (hinv : ReadInv c ph) : ReadInv c2 ph := by
  cases ph with
  | header => simpa [ReadInv, hr] using hinv
  | body h => simpa [ReadInv, hr, ht] using hinv
  | halted => exact absurd rfl hne

theorem specFramesRead_send (ph : ReadPhase) (msg : sMessage) (es : List Event)
    (hne : ph ≠ ReadPhase.halted) :
    specFramesRead ph (Event.send msg :: es) = specFramesRead ph es := by
  cases ph with
  | header => simp [specFramesRead]
  | body h => simp [specFramesRead]
  | halted => exact absurd rfl hne

theorem specFramesRead_writeDone (ph : ReadPhase) (i : Nat) (ec : Bool) (es : List Event)
    (hne : ph ≠ ReadPhase.halted) :
    specFramesRead ph (Event.writeDone i ec :: es) = specFramesRead ph es := by
  cases ph with
  | header => simp [specFramesRead]
  | body h => simp [specFramesRead]
  | halted => exact absurd rfl hne

theorem specFramesRead_failure (ph : ReadPhase) (i : Nat) (data : List Byte) (es : List Event) :
    specFramesRead ph (Event.readDone i true data :: es) = [] := by
  cases ph <;> simp [specFramesRead]

theorem run_refines_frames (evs : List Event) :
    ∀ (c c1 : connection) (ph : ReadPhase), ReadInv c ph → run c evs = some c1 →
      ∃ L, c1.m_qMessagesIn.myDeque = c.m_qMessagesIn.myDeque ++ L
        ∧ List.Forall₂ FrameDelivered L (specFramesRead ph evs) := by
  induction evs with
  | nil =>
    intro c c1 ph _ h
    simp only [run, Option.some.injEq] at h
    subst h
    exact ⟨[], by simp, by simp [specFramesRead]⟩
  | cons e es ih =>
    intro c c1 ph hinv h
    by_cases hph : ph = ReadPhase.halted
    · subst hph
      obtain ⟨hr, hs⟩ := hinv
      obtain ⟨-, -, hq⟩ := run_halted (e :: es) c c1 hr hs h
      exact ⟨[], by simp [hq], by simp [specFramesRead]⟩
    · simp only [run] at h
      split at h
      · exact absurd h (by simp)
      · rename_i c2 hstep
        cases e with
        | send msg =>
          obtain ⟨hr, hq, -⟩ := step_send_frame c c2 msg hstep
          have ht := step_send_assembly c c2 msg hstep
          obtain ⟨L, hL, hF⟩ := ih c2 c1 ph (ReadInv_of_frame c c2 ph hr ht hph hinv) h
          exact ⟨L, by rw [hL, hq], by rw [specFramesRead_send ph msg es hph]; exact hF⟩
        | writeDone i ec =>
          obtain ⟨op, -, hr, hq, -⟩ := step_writeDone_spec c c2 i ec hstep
          have ht := step_writeDone_assembly c c2 i ec hstep
          obtain ⟨L, hL, hF⟩ := ih c2 c1 ph (ReadInv_of_frame c c2 ph hr ht hph hinv) h
          exact ⟨L, by rw [hL, hq], by rw [specFramesRead_writeDone ph i ec es hph]; exact hF⟩
        | readDone i ec data =>
          cases ec with
          | true =>
            obtain ⟨op, hop, hfail, -⟩ := step_readDone_spec c c2 i true data hstep
            obtain ⟨hr, hs, hq⟩ := hfail rfl
            have hlen : c.reads.length ≤ 1 := by
              cases ph with
              | header => simp [show c.reads = [ReadOp.header] from hinv]
              | body hd => simp [hinv.1]
              | halted => exact absurd rfl hph
            obtain ⟨-, -, herase⟩ := get?_of_length_le_one _ _ _ hlen hop
            obtain ⟨-, -, hq1⟩ := run_halted es c2 c1 (by rw [hr, herase]) hs h
            exact ⟨[], by simp [hq1, hq], by rw [specFramesRead_failure]; exact List.Forall₂.nil⟩
          | false =>
            cases ph with
            | halted => exact absurd rfl hph
            | header =>
              have hreads : c.reads = [ReadOp.header] := hinv
              obtain ⟨-, hc2⟩ := step_readHeader_ok c c2 i data hreads hstep
              by_cases hpos : 0 < (decodeHeader data).size
              · have hinv2 : ReadInv c2 (ReadPhase.body (decodeHeader data)) := by
                  subst hc2
                  simp [ReadInv, ReadHeader_completion, hpos, ReadBody, resize_length]
                have hq2 : c2.m_qMessagesIn = c.m_qMessagesIn := by
                  subst hc2
                  simp [ReadHeader_completion, hpos, ReadBody]
                obtain ⟨L, hL, hF⟩ := ih c2 c1 _ hinv2 h
                refine ⟨L, by rw [hL, hq2], ?_⟩
                simpa [specFramesRead, hpos] using hF
              · have hc2a : c2 = AddToIncomingMessageQueue
                    { c with reads := [],
                             m_msgTemporaryIn :=
                               { c.m_msgTemporaryIn with header := decodeHeader data } } := by
                  rw [hc2]
                  simp [ReadHeader_completion, hpos]
                obtain ⟨d, hd, hdm, hdr⟩ := AddToIncomingMessageQueue_spec
                  { c with reads := [],
                           m_msgTemporaryIn :=
                             { c.m_msgTemporaryIn with header := decodeHeader data } }
                rw [← hc2a] at hd hdr
                have hinv2 : ReadInv c2 ReadPhase.header := by
                  simpa [ReadInv] using hdr
                obtain ⟨L, hL, hF⟩ := ih c2 c1 _ hinv2 h
                refine ⟨d :: L, by rw [hL, hd]; simp, ?_⟩
                have hspec : specFramesRead ReadPhase.header (Event.readDone i false data :: es)
                    = (decodeHeader data, []) :: specFramesRead ReadPhase.header es := by
                  simp [specFramesRead, hpos]
                rw [hspec]
                refine List.Forall₂.cons ⟨by rw [hdm], fun hcon => absurd hcon hpos⟩ hF
            | body hd =>
              obtain ⟨hreads, hhdr, hblen, hpos⟩ := hinv
              obtain ⟨hdlen, hc2⟩ := step_readBody_ok c c2 i hd.size data hreads hstep
              have hcp : memcpyTo c.m_msgTemporaryIn.body 0 data = data :=
                memcpyTo_whole _ _ (by rw [hblen, hdlen])
              rw [hcp] at hc2
              have hc2a : c2 = AddToIncomingMessageQueue
                  { c with reads := [],
                           m_msgTemporaryIn := { c.m_msgTemporaryIn with body := data } } := by
                rw [hc2]
                simp [ReadBody_completion]
              obtain ⟨d, hdq, hdm, hdr⟩ := AddToIncomingMessageQueue_spec
                { c with reads := [],
                         m_msgTemporaryIn := { c.m_msgTemporaryIn with body := data } }
              rw [← hc2a] at hdq hdr
              have hinv2 : ReadInv c2 ReadPhase.header := by
                simpa [ReadInv] using hdr
              obtain ⟨L, hL, hF⟩ := ih c2 c1 _ hinv2 h
              refine ⟨d :: L, by rw [hL, hdq]; simp, ?_⟩
              have hspec : specFramesRead (ReadPhase.body hd) (Event.readDone i false data :: es)
                  = (hd, data) :: specFramesRead ReadPhase.header es := by
                simp [specFramesRead]
              rw [hspec]
              refine List.Forall₂.cons ⟨by rw [hdm]; exact hhdr, fun _ => ⟨by rw [hdm], hdlen⟩⟩ hF

theorem step_delivers_only_on_read_success (c c1 : connection) (e : Event)
    (h : step c e = some c1) (hne : c1.m_qMessagesIn ≠ c.m_qMessagesIn) :
    ∃ i data, e = Event.readDone i false data := by
  cases e with
  | send msg => exact absurd (step_send_frame c c1 msg h).2.1 hne
  | readDone i ec data =>
    cases ec with
    | false => exact ⟨i, data, rfl⟩
    | true =>
      obtain ⟨op, -, hfail, -⟩ := step_readDone_spec c c1 i true data h
      exact absurd (hfail rfl).2.2 hne
  | writeDone i ec =>
    obtain ⟨op, -, -, hq, -⟩ := step_writeDone_spec c c1 i ec h
    exact absurd hq hne

/-! ## The server: pool sweeps, dispatch, id allocation -/

theorem connected_none (s : server_interface) : s.connected none = false := rfl

theorem connected_congr (s s1 : server_interface) (h : s1.objects = s.objects)
    (p : Option Nat) : s1.connected p = s.connected p := by
  simp [server_interface.connected, h]

theorem Send_objects (s : server_interface) (p : Option Nat) (m : sMessage) :
    (s.Send p m).objects = s.objects ∧ (s.Send p m).disconnected = s.disconnected
      ∧ (s.Send p m).posted = s.posted ++ sendsTo m [p] := by
  cases p <;> simp [server_interface.Send, sendsTo]

theorem sendsTo_cons (m : sMessage) (p : Option Nat) (l : List (Option Nat)) :
    sendsTo m (p :: l) = sendsTo m [p] ++ sendsTo m l := by
  cases p <;> simp [sendsTo]

theorem MessageAllClients_loop_spec (message : sMessage) (pIgnoreClient : Option Nat)
    (pool : List (Option Nat)) (s : server_interface) (b : Bool) :
    (MessageAllClients_loop message pIgnoreClient pool s b).1
        = pool.map (fun p => if s.connected p then p else none)
      ∧ (MessageAllClients_loop message pIgnoreClient pool s b).2.1.posted
        = s.posted ++ sendsTo message
            (pool.filter (fun p => s.connected p && decide (p ≠ pIgnoreClient)))
      ∧ (MessageAllClients_loop message pIgnoreClient pool s b).2.1.disconnected
        = s.disconnected ++ pool.filter (fun p => !s.connected p)
      ∧ (MessageAllClients_loop message pIgnoreClient pool s b).2.2
        = (b || pool.any (fun p => !s.connected p)) := by
  induction pool generalizing s b with
  | nil => simp [MessageAllClients_loop, sendsTo]
  | cons client rest ih =>
    by_cases hc : s.connected client = true
    · by_cases hi : client = pIgnoreClient
      · have := ih s b
        simp only [MessageAllClients_loop, hc, if_true, hi, ne_eq, not_true_eq_false, if_false]
        subst hi
        simp only [hc] at this ⊢
        simpa [hc] using this
      · have hobj := Send_objects s client message
        have hcon : ∀ p, (s.Send client message).connected p = s.connected p :=
          connected_congr s _ hobj.1
        have := ih (s.Send client message) b
        simp only [MessageAllClients_loop, hc, if_true, ne_eq, hi, not_false_eq_true]
        simp only [hcon, hobj.2.1, hobj.2.2] at this
        obtain ⟨h1, h2, h3, h4⟩ := this
        refine ⟨by simp [h1, hc], ?_, by simp [h3, hc], by simp [h4, hc]⟩
        rw [h2, List.filter_cons]
        simp only [hc, hi, ne_eq, not_false_eq_true, decide_True, Bool.and_self, if_true]
        rw [sendsTo_cons message client (List.filter _ rest), List.append_assoc]
    · have hc0 : s.connected client = false := by simpa using hc
      have hcon : ∀ p, (s.OnClientDisconnect client).connected p = s.connected p :=
        connected_congr s _ rfl
      have := ih (s.OnClientDisconnect client) true
      simp only [MessageAllClients_loop, hc0, Bool.false_eq_true, if_false]
      simp only [hcon] at this
      obtain ⟨h1, h2, h3, h4⟩ := this
      refine ⟨by simp [h1, hc0], ?_, ?_, by simp [h4, hc0]⟩
      · rw [h2]; simp [server_interface.OnClientDisconnect, hc0, List.filter_cons]
      · rw [h3]; simp [server_interface.OnClientDisconnect, hc0, List.filter_cons]

theorem eraseRemove_none_map (s : server_interface) (pool : List (Option Nat)) :
    eraseRemove (pool.map (fun p => if s.connected p then p else none)) none
      = pool.filter (fun p => s.connected p) := by
  induction pool with
  | nil => rfl
  | cons p rest ih =>
    simp only [eraseRemove, ne_eq, decide_not] at ih
    by_cases hc : s.connected p = true
    · have hp : p ≠ none := by
        intro h; rw [h, connected_none] at hc; exact absurd hc (by simp)
      simp [eraseRemove, List.filter_cons, hc, hp, ih]
    · simp [eraseRemove, List.filter_cons, hc, ih]

theorem map_of_all_connected (s : server_interface) (pool : List (Option Nat))
    (h : pool.any (fun p => !s.connected p) = false) :
    pool.map (fun p => if s.connected p then p else none)
      = pool.filter (fun p => s.connected p) := by
  induction pool with
  | nil => rfl
  | cons p rest ih =>
    simp only [List.any_cons, Bool.or_eq_false_iff, Bool.not_eq_false_eq_eq_true] at h
    have hp : s.connected p = true := by simpa using h.1
    simp [List.filter_cons, hp, ih h.2]

theorem Update_loop_spec {σ : Type} (OnMessage : σ → sOwnedMessage → σ) (n : Nat)
    (hn : n < 2 ^ 64) (q : List sOwnedMessage) (cnt : Nat) (app : σ) (hc : cnt ≤ n) :
    Update_loop OnMessage n q cnt app
      = (List.foldl OnMessage app (q.take (n - cnt)), { myDeque := q.drop (n - cnt) }) := by
  induction q generalizing cnt app with
  | nil => simp [Update_loop]
  | cons msg rest ih =>
    by_cases hlt : cnt < n
    · have hmod : (cnt + 1) % 2 ^ 64 = cnt + 1 := Nat.mod_eq_of_lt (by omega)
      have hsub : n - cnt = (n - (cnt + 1)) + 1 := by omega
      simp only [Update_loop, hlt, if_true, hmod]
      rw [ih (cnt + 1) (OnMessage app msg) (by omega), hsub]
      simp
    · have hsub : n - cnt = 0 := by omega
      simp [Update_loop, hlt, hsub]

theorem MessageAllClients_loop_frame (message : sMessage) (pIgnoreClient : Option Nat)
    (pool : List (Option Nat)) (s : server_interface) (b : Bool) :
    (MessageAllClients_loop message pIgnoreClient pool s b).2.1.approved = s.approved
      ∧ (MessageAllClients_loop message pIgnoreClient pool s b).2.1.nIDCounter = s.nIDCounter
      ∧ (MessageAllClients_loop message pIgnoreClient pool s b).2.1.acceptsArmed
          = s.acceptsArmed := by
  induction pool generalizing s b with
  | nil => simp [MessageAllClients_loop]
  | cons client rest ih =>
    simp only [MessageAllClients_loop]
    split
    · split
      · have := ih (s.Send client message) b
        cases client <;> simpa [server_interface.Send] using this
      · exact ih s b
    · exact ih (s.OnClientDisconnect client) true

theorem accept_completion_spec (s : server_interface) (ec approve : Bool) :
    (s.accept_completion ec approve).acceptsArmed = s.acceptsArmed + 1
      ∧ (ec = false → approve = true →
          (s.accept_completion ec approve).approved = s.approved ++ [s.nIDCounter]
          ∧ (s.accept_completion ec approve).nIDCounter = (s.nIDCounter + 1) % 2 ^ 32
          ∧ (s.accept_completion ec approve).m_deqConnections
              = s.m_deqConnections ++ [some s.objects.length])
      ∧ (¬ (ec = false ∧ approve = true) →
          (s.accept_completion ec approve).approved = s.approved
          ∧ (s.accept_completion ec approve).nIDCounter = s.nIDCounter
          ∧ (s.accept_completion ec approve).m_deqConnections = s.m_deqConnections) := by
  cases ec <;> cases approve <;>
    simp [server_interface.accept_completion, server_interface.WaitForClientConnection,
      connection.new, ConnectToClient, ReadHeader, connection.GetId, List.getElem?_modify_eq,
      List.getElem?_append_right]

theorem MessageClient_frame (s : server_interface) (client : Option Nat) (m : sMessage) :
    (s.MessageClient client m).approved = s.approved
      ∧ (s.MessageClient client m).nIDCounter = s.nIDCounter
      ∧ (s.MessageClient client m).acceptsArmed = s.acceptsArmed := by
  unfold server_interface.MessageClient
  split
  · cases client <;> simp [server_interface.Send]
  · simp [server_interface.OnClientDisconnect]

theorem MessageAllClients_frame (s : server_interface) (m : sMessage) (ig : Option Nat) :
    (s.MessageAllClients m ig).approved = s.approved
      ∧ (s.MessageAllClients m ig).nIDCounter = s.nIDCounter
      ∧ (s.MessageAllClients m ig).acceptsArmed = s.acceptsArmed := by
  have h := MessageAllClients_loop_frame m ig s.m_deqConnections s false
  simp only [server_interface.MessageAllClients]
  split <;> exact h

theorem serverStep_ids (s s1 : server_interface) (e : ServerEvent)
    (h : serverStep s e = some s1)
    (hlog : ∀ i, i < s.approved.length → s.approved[i]? = some ((10000 + i) % 2 ^ 32))
    (hctr : s.nIDCounter = (10000 + s.approved.length) % 2 ^ 32) :
    (∀ i, i < s1.approved.length → s1.approved[i]? = some ((10000 + i) % 2 ^ 32))
      ∧ s1.nIDCounter = (10000 + s1.approved.length) % 2 ^ 32 := by
  cases e with
  | accept ec approve =>
    simp only [serverStep] at h
    split at h
    · exact absurd h (by simp)
    · simp only [Option.some.injEq] at h
      obtain ⟨-, hyes, hno⟩ := accept_completion_spec
        ({ s with acceptsArmed := s.acceptsArmed - 1 } : server_interface) ec approve
      rw [h] at hyes hno
      by_cases hcase : ec = false ∧ approve = true
      · obtain ⟨ha, hc, -⟩ := hyes hcase.1 hcase.2
        simp only at ha hc
        refine ⟨?_, ?_⟩
        · intro i hi
          rw [ha] at hi ⊢
          simp only [List.length_append, List.length_singleton] at hi
          by_cases hlt : i < s.approved.length
          · rw [List.getElem?_append_left hlt]
            exact hlog i hlt
          · have hieq : i = s.approved.length := by omega
            subst hieq
            rw [List.getElem?_append_right (le_refl _)]
            simp [hctr]
        · rw [hc, ha, hctr]
          simp only [List.length_append, List.length_singleton]
          omega
      · obtain ⟨ha, hc, -⟩ := hno hcase
        simp only at ha hc
        rw [ha, hc]
        exact ⟨hlog, hctr⟩
  | socketClosed a =>
    simp only [serverStep, Option.some.injEq] at h
    subst h
    exact ⟨hlog, hctr⟩
  | messageClient client m =>
    simp only [serverStep, Option.some.injEq] at h
    subst h
    obtain ⟨ha, hc, -⟩ := MessageClient_frame s client m
    rw [ha, hc]
    exact ⟨hlog, hctr⟩
  | messageAllClients m ig =>
    simp only [serverStep, Option.some.injEq] at h
    subst h
    obtain ⟨ha, hc, -⟩ := MessageAllClients_frame s m ig
    rw [ha, hc]
    exact ⟨hlog, hctr⟩

theorem serverStep_total (s : server_interface) (e : ServerEvent) (harmed : 0 < s.acceptsArmed) :
    ∃ s1, serverStep s e = some s1 ∧ 0 < s1.acceptsArmed := by
  cases e with
  | accept ec approve =>
    have hne : s.acceptsArmed ≠ 0 := by omega
    refine ⟨({ s with acceptsArmed := s.acceptsArmed - 1 } : server_interface).accept_completion
      ec approve, by simp only [serverStep, hne, if_false], ?_⟩
    rw [(accept_completion_spec _ ec approve).1]
    omega
  | socketClosed a => exact ⟨_, rfl, harmed⟩
  | messageClient client m =>
    exact ⟨_, rfl, by rw [(MessageClient_frame s client m).2.2]; exact harmed⟩
  | messageAllClients m ig =>
    exact ⟨_, rfl, by rw [(MessageAllClients_frame s m ig).2.2]; exact harmed⟩

theorem serverRun_ids (evs : List ServerEvent) (s : server_interface)
    (harmed : 0 < s.acceptsArmed)
    (hlog : ∀ i, i < s.approved.length → s.approved[i]? = some ((10000 + i) % 2 ^ 32))
    (hctr : s.nIDCounter = (10000 + s.approved.length) % 2 ^ 32) :
    ∃ s1, serverRun s evs = some s1
      ∧ (∀ i, i < s1.approved.length → s1.approved[i]? = some ((10000 + i) % 2 ^ 32))
      ∧ s1.nIDCounter = (10000 + s1.approved.length) % 2 ^ 32 := by
  induction evs generalizing s with
  | nil => exact ⟨s, rfl, hlog, hctr⟩
  | cons e es ih =>
    obtain ⟨s1, hstep, harmed1⟩ := serverStep_total s e harmed
    obtain ⟨hlog1, hctr1⟩ := serverStep_ids s s1 e hstep hlog hctr
    obtain ⟨s2, hrun, h2⟩ := ih s1 harmed1 hlog1 hctr1
    exact ⟨s2, by simp only [serverRun, hstep, hrun], h2⟩

theorem serverRun_accepts (k : Nat) (s : server_interface) (harmed : 0 < s.acceptsArmed) :
    ∃ s1, serverRun s (List.replicate k (ServerEvent.accept false true)) = some s1
      ∧ s1.approved.length = s.approved.length + k ∧ 0 < s1.acceptsArmed := by
  induction k generalizing s with
  | zero => exact ⟨s, rfl, rfl, harmed⟩
  | succ k ih =>
    obtain ⟨s1, hstep, harmed1⟩ := serverStep_total s (ServerEvent.accept false true) harmed
    have hlen : s1.approved.length = s.approved.length + 1 := by
      have hne : s.acceptsArmed ≠ 0 := by omega
      simp only [serverStep, hne, if_false, Option.some.injEq] at hstep
      rw [← hstep, ((accept_completion_spec _ false true).2.1 rfl rfl).1]
      simp
    obtain ⟨s2, hrun, hlen2, harmed2⟩ := ih s1 harmed1
    exact ⟨s2, by simp only [List.replicate_succ, serverRun, hstep, hrun],
      by rw [hlen2, hlen]; omega, harmed2⟩

theorem Send_handler_total (c : connection) (msg : sMessage) :
    ∃ c1, step c (Event.send msg) = some c1 := by
  cases hq : c.m_qMessagesOut.myDeque <;>
    simp [step, Send_handler, TsQueue.empty, TsQueue.push_back, WriteHeader, TsQueue.front, hq]

/-! ## The claims -/

/-- C1: for a message whose `header.size` is its body length, the bytes the write
chain puts on the wire (the header, then the body when it is not empty), fed to
the read chain of a connection with an empty assembly body and an empty incoming
queue, deliver exactly one message, with the id, size and body of the original;
the read chain is then waiting for the next header. -/
theorem C1_write_read_round_trip (sender receiver : connection) (m : sMessage) (fuel : Nat)
    (hrep : m.Representable) (hsize : m.header.size = m.body.length)
    (hidle : sender.m_qMessagesOut.myDeque = [] ∧ sender.writes = [] ∧ sender.wire = [])
    (hfresh : receiver.reads = [ReadOp.header] ∧ receiver.m_msgTemporaryIn.body = []
      ∧ receiver.m_qMessagesIn.myDeque = []) :
    ∃ cs cr d, run sender (writeEvents m) = some cs
      ∧ cs.wire = encodeHeader m.header ++ m.body
      ∧ recv (fuel + 2) receiver cs.wire = (cr, [])
      ∧ cr.m_qMessagesIn.myDeque = [d]
      ∧ d.message.header.id = m.header.id
      ∧ d.message.header.size = m.header.size
      ∧ d.message.body = m.body
      ∧ cr.reads = [ReadOp.header] := by
  obtain ⟨hq, hw, hwire⟩ := hidle
  obtain ⟨hreads, hbody, hin⟩ := hfresh
  refine ⟨{ sender with wire := sender.wire ++ wireBytes m },
    { receiver with
        m_msgTemporaryIn := m,
        m_qMessagesIn := receiver.m_qMessagesIn.push_back
          { remote := if receiver.m_nOwnerType = owner.server then some receiver.self else none,
            message := m } },
    { remote := if receiver.m_nOwnerType = owner.server then some receiver.self else none,
      message := m },
    run_writeEvents sender m hq hw, by simp [hwire, wireBytes], ?_, ?_, rfl, rfl, rfl, ?_⟩
  · simp only [hwire, List.nil_append]
    exact recv_wireBytes receiver m hrep hsize hreads hbody fuel
  · simp [TsQueue.push_back, hin]
  · exact hreads

theorem C1_write_read_round_trip_witness :
    sampleMessage.Representable ∧ sampleMessage.header.size = sampleMessage.body.length
      ∧ ∃ cs cr d, run sampleSender (writeEvents sampleMessage) = some cs
        ∧ cs.wire = encodeHeader sampleMessage.header ++ sampleMessage.body
        ∧ recv (0 + 2) sampleReceiver cs.wire = (cr, [])
        ∧ cr.m_qMessagesIn.myDeque = [d]
        ∧ d.message.header.id = sampleMessage.header.id
        ∧ d.message.header.size = sampleMessage.header.size
        ∧ d.message.body = sampleMessage.body
        ∧ cr.reads = [ReadOp.header] :=
  ⟨by decide, rfl,
    C1_write_read_round_trip sampleSender sampleReceiver sampleMessage 0 (by decide) rfl
      ⟨rfl, rfl, rfl⟩ ⟨rfl, rfl, rfl⟩⟩

/-- C3 (evaluation): whatever constant `sizeof` yields in `size()`, pushing the
32-bit value 15 twice onto an empty message leaves 4 and then 8 bytes in the
body while `header.size` holds the same constant after both pushes, so it
differs from the body length after the first push or after the second. -/
theorem C3_header_size_is_not_body_length (sizeofOperand : Nat) :
    (operator_lshift sizeofOperand {} (bytesOfUInt32 15)).body.length = 4
      ∧ (pushAll sizeofOperand {} [bytesOfUInt32 15, bytesOfUInt32 15]).body.length = 8
      ∧ (operator_lshift sizeofOperand {} (bytesOfUInt32 15)).header.size
          = sizeofOperand % 2 ^ 16
      ∧ (pushAll sizeofOperand {} [bytesOfUInt32 15, bytesOfUInt32 15]).header.size
          = sizeofOperand % 2 ^ 16
      ∧ ((operator_lshift sizeofOperand {} (bytesOfUInt32 15)).header.size
            ≠ (operator_lshift sizeofOperand {} (bytesOfUInt32 15)).body.length
          ∨ (pushAll sizeofOperand {} [bytesOfUInt32 15, bytesOfUInt32 15]).header.size
            ≠ (pushAll sizeofOperand {} [bytesOfUInt32 15, bytesOfUInt32 15]).body.length) := by
  refine ⟨by simp [operator_lshift_body, bytesOfUInt32],
    by simp [pushAll, operator_lshift_body, bytesOfUInt32],
    operator_lshift_header_size _ _ _, operator_lshift_header_size _ _ _, ?_⟩
  simp only [pushAll, List.foldl_cons, List.foldl_nil, operator_lshift_header_size,
    operator_lshift_body, bytesOfUInt32, List.nil_append, List.length_cons, List.length_nil,
    List.length_append]
  omega

/-- C4: from an empty outgoing queue with no write outstanding, every reachable
state has at most one asynchronous write outstanding, a write is outstanding
only while the queue is not empty, and the handler of `Send` always runs and
starts a header write exactly when the queue was empty before its append. -/
theorem C4_at_most_one_write_outstanding (c0 c : connection) (evs : List Event)
    (_hq : c0.m_qMessagesOut.myDeque = []) (hw : c0.writes = [])
    (hrun : run c0 evs = some c) :
    c.writes.length ≤ 1
      ∧ (c.writes ≠ [] → c.m_qMessagesOut.myDeque ≠ [])
      ∧ ∀ msg, ∃ c1, step c (Event.send msg) = some c1
          ∧ c1.writes = (if c.m_qMessagesOut.empty
              then c.writes ++ [WriteOp.header (encodeHeader msg.header)] else c.writes)
          ∧ c1.writes.length ≤ 1 := by
  obtain ⟨h1, h2⟩ := run_write_invariant evs c0 c (by simp [hw]) (by simp [hw]) hrun
  refine ⟨h1, h2, fun msg => ?_⟩
  obtain ⟨c1, hstep⟩ := Send_handler_total c msg
  exact ⟨c1, hstep, (step_send_frame c c1 msg hstep).2.2.2.2.2,
    (step_write_invariant c c1 _ h1 h2 hstep).1⟩

theorem C4_at_most_one_write_outstanding_witness :
    sampleSender.m_qMessagesOut.myDeque = [] ∧ sampleSender.writes = []
      ∧ run sampleSender (sampleSends.take 3) = some (runD sampleSender (sampleSends.take 3))
      ∧ (runD sampleSender (sampleSends.take 3)).writes = [WriteOp.body sampleMessage.body]
      ∧ (runD sampleSender (sampleSends.take 3)).writes.length ≤ 1 :=
  ⟨rfl, rfl, rfl, rfl,
    (C4_at_most_one_write_outstanding sampleSender (runD sampleSender (sampleSends.take 3))
      (sampleSends.take 3) rfl rfl rfl).1⟩

/-- C5: for every interleaving of `Send` handlers and completions in which no
write fails, once the outgoing queue is empty again the bytes written to the
socket are the concatenation, in send order, of each message's header bytes
followed by its body bytes; and from every state such an interleaving reaches,
letting the outstanding writes complete empties the queue, so every message sent
does reach the wire. -/
theorem C5_wire_is_sends_in_order (c0 c : connection) (evs : List Event)
    (hq : c0.m_qMessagesOut.myDeque = []) (hw : c0.writes = []) (hwire : c0.wire = [])
    (hok : noWriteFailure evs = true) (hrun : run c0 evs = some c) :
    (c.m_qMessagesOut.myDeque = [] →
        c.wire = ((sentMessages evs).map (fun m => encodeHeader m.header ++ m.body)).flatten)
      ∧ ∃ k c1, run c (List.replicate k (Event.writeDone 0 false)) = some c1
          ∧ c1.m_qMessagesOut.myDeque = []
          ∧ c1.wire
            = ((sentMessages evs).map (fun m => encodeHeader m.header ++ m.body)).flatten := by
  have hinv : WireInv c0 [] := Or.inl ⟨hw, hq, hwire⟩
  have h := run_WireInv evs c0 c [] hinv hok hrun
  have hflat : [] ++ flatWire (sentMessages evs)
      = ((sentMessages evs).map (fun m => encodeHeader m.header ++ m.body)).flatten := by
    simp only [flatWire, List.nil_append]
    rfl
  rw [hflat] at h
  refine ⟨fun hdone => ?_, ?_⟩
  · rcases h with ⟨-, -, hfin⟩ | ⟨m, rest, hcon, -⟩ | ⟨m, rest, hcon, -⟩
    · exact hfin
    · rw [hdone] at hcon; cases hcon
    · rw [hdone] at hcon; cases hcon
  · obtain ⟨k, c1, hrun1, hq1, -, hwire1⟩ := drain_all _ c _ h rfl
    exact ⟨k, c1, hrun1, hq1, hwire1⟩

theorem C5_wire_is_sends_in_order_witness :
    noWriteFailure sampleInterleaving = true
      ∧ run sampleSender sampleInterleaving = some (runD sampleSender sampleInterleaving)
      ∧ (runD sampleSender sampleInterleaving).m_qMessagesOut.myDeque = []
      ∧ (runD sampleSender sampleInterleaving).wire
        = encodeHeader samplePing.header ++ (encodeHeader sampleMessage.header
            ++ sampleMessage.body) ++ encodeHeader samplePing.header :=
  ⟨rfl, rfl, rfl,
    ((C5_wire_is_sends_in_order sampleSender (runD sampleSender sampleInterleaving)
      sampleInterleaving rfl rfl rfl rfl rfl).1 rfl).trans rfl⟩

/-- C6: when the completion of `ReadHeader` or of `ReadBody` reports an error,
the handler closes the socket, pushes nothing onto the incoming queue and starts
no read; in every later state the socket is closed, no read is outstanding and
the queue holds what it held before the error.  An entry is only ever added by
the successful completion of a read.  And over every run of a connection whose
read chain has been started, the entries added to the incoming queue are, one
for one and in order, the frames that were read completely: each carries a
header that was read successfully and, when that header announces a body, the
announced number of bytes, read successfully after it; a header whose body read
has not completed, or has failed, delivers nothing. -/
theorem C6_read_error_halts_chain (c0 c c1 c2 : connection) (pre post : List Event) (i : Nat)
    (data : List Byte) (hstart : c0.reads.length ≤ 1) (hpre : run c0 pre = some c)
    (hfail : step c (Event.readDone i true data) = some c1) (hpost : run c1 post = some c2) :
    (c1.socketOpen = false ∧ c1.m_qMessagesIn = c.m_qMessagesIn ∧ c1.reads = [])
      ∧ (c2.socketOpen = false ∧ c2.m_qMessagesIn = c.m_qMessagesIn ∧ c2.reads = [])
      ∧ (∀ (s s1 : connection) (e : Event), step s e = some s1 →
          s1.m_qMessagesIn ≠ s.m_qMessagesIn →
          ∃ j received, e = Event.readDone j false received)
      ∧ ∀ (d0 d : connection) (evs : List Event), d0.reads = [ReadOp.header] →
          run d0 evs = some d →
          ∃ L, d.m_qMessagesIn.myDeque = d0.m_qMessagesIn.myDeque ++ L
            ∧ List.Forall₂ FrameDelivered L (specFramesRead ReadPhase.header evs) := by
  have hlen := run_reads_le_one pre c0 c hstart hpre
  obtain ⟨op, hop, hspec, -⟩ := step_readDone_spec c c1 i true data hfail
  obtain ⟨hr, hs, hq⟩ := hspec rfl
  obtain ⟨-, -, herase⟩ := get?_of_length_le_one _ _ _ hlen hop
  have hr1 : c1.reads = [] := by rw [hr, herase]
  obtain ⟨h1, h2, h3⟩ := run_halted post c1 c2 hr1 hs hpost
  exact ⟨⟨hs, hq, hr1⟩, ⟨h2, by rw [h3, hq], h1⟩,
    fun s s1 e hstep hne => step_delivers_only_on_read_success s s1 e hstep hne,
    fun d0 d evs hd0 hrun => run_refines_frames evs d0 d ReadPhase.header hd0 hrun⟩

theorem C6_read_error_halts_chain_witness :
    sampleReceiver.reads.length ≤ 1
      ∧ run sampleReceiver sampleHeaderRead = some (runD sampleReceiver sampleHeaderRead)
      ∧ (runD sampleReceiver sampleHeaderRead).reads = [ReadOp.body 4]
      ∧ (runD (runD (runD sampleReceiver sampleHeaderRead) [Event.readDone 0 true []])
          sampleAfterFailure).reads = []
      ∧ (runD (runD (runD sampleReceiver sampleHeaderRead) [Event.readDone 0 true []])
          sampleAfterFailure).m_qMessagesIn = sampleReceiver.m_qMessagesIn
      ∧ specFramesRead ReadPhase.header sampleFramesThenFailure
          = [(sampleMessage.header, sampleMessage.body), (samplePing.header, [])]
      ∧ specFramesRead ReadPhase.header sampleHeaderRead = []
      ∧ ∃ L, (runD sampleReceiver sampleFramesThenFailure).m_qMessagesIn.myDeque
            = sampleReceiver.m_qMessagesIn.myDeque ++ L
          ∧ List.Forall₂ FrameDelivered L
              (specFramesRead ReadPhase.header sampleFramesThenFailure) :=
  ⟨by decide, rfl, rfl,
    (C6_read_error_halts_chain sampleReceiver (runD sampleReceiver sampleHeaderRead)
      (runD (runD sampleReceiver sampleHeaderRead) [Event.readDone 0 true []])
      (runD (runD (runD sampleReceiver sampleHeaderRead) [Event.readDone 0 true []])
        sampleAfterFailure)
      sampleHeaderRead sampleAfterFailure 0 [] (by decide) rfl rfl rfl).2.1.2.2,
    (C6_read_error_halts_chain sampleReceiver (runD sampleReceiver sampleHeaderRead)
      (runD (runD sampleReceiver sampleHeaderRead) [Event.readDone 0 true []])
      (runD (runD (runD sampleReceiver sampleHeaderRead) [Event.readDone 0 true []])
        sampleAfterFailure)
      sampleHeaderRead sampleAfterFailure 0 [] (by decide) rfl rfl rfl).2.1.2.1,
    rfl, rfl,
    (C6_read_error_halts_chain sampleReceiver (runD sampleReceiver sampleHeaderRead)
      (runD (runD sampleReceiver sampleHeaderRead) [Event.readDone 0 true []])
      (runD (runD (runD sampleReceiver sampleHeaderRead) [Event.readDone 0 true []])
        sampleAfterFailure)
      sampleHeaderRead sampleAfterFailure 0 [] (by decide) rfl rfl rfl).2.2.2
      sampleReceiver (runD sampleReceiver sampleFramesThenFailure) sampleFramesThenFailure
      rfl rfl⟩

/-- C7: `MessageAllClients` calls `Send(message)` on the pool members that are
connected and are not the ignored pointer, each once and in pool order; calls
`OnClientDisconnect` once for each member that is null or not connected; and
leaves the pool with exactly those members removed, the others in their prior
order. -/
theorem C7_MessageAllClients_sweep (s : server_interface) (message : sMessage)
    (pIgnoreClient : Option Nat) :
    (s.MessageAllClients message pIgnoreClient).posted
        = s.posted ++ sendsTo message
            (s.m_deqConnections.filter
              (fun p => s.connected p && decide (p ≠ pIgnoreClient)))
      ∧ (sendsTo message (s.m_deqConnections.filter
            (fun p => s.connected p && decide (p ≠ pIgnoreClient)))).map
              (fun call => some call.1)
          = s.m_deqConnections.filter (fun p => s.connected p && decide (p ≠ pIgnoreClient))
      ∧ (s.MessageAllClients message pIgnoreClient).disconnected
          = s.disconnected ++ s.m_deqConnections.filter (fun p => !s.connected p)
      ∧ (s.MessageAllClients message pIgnoreClient).m_deqConnections
          = s.m_deqConnections.filter (fun p => s.connected p) := by
  obtain ⟨h1, h2, h3, h4⟩ :=
    MessageAllClients_loop_spec message pIgnoreClient s.m_deqConnections s false
  refine ⟨?_, ?_, ?_, ?_⟩
  · simp only [server_interface.MessageAllClients]
    split <;> exact h2
  · generalize s.m_deqConnections = pool
    induction pool with
    | nil => rfl
    | cons p rest ih =>
      rw [List.filter_cons]
      split
      · rename_i hp
        cases p with
        | none => simp [connected_none] at hp
        | some a =>
          rw [sendsTo_cons, List.map_append, ih]
          simp [sendsTo]
      · exact ih
  · simp only [server_interface.MessageAllClients]
    split <;> exact h3
  · simp only [server_interface.MessageAllClients]
    split
    · rw [h1]; exact eraseRemove_none_map s _
    · rename_i hflag
      rw [h4] at hflag
      simp only [Bool.false_or, Bool.not_eq_true] at hflag
      rw [h1]; exact map_of_all_connected s _ hflag

/-- C8 (evaluation): a connection is approved, its socket gets closed, and the
application calls `MessageClient` on it: `OnClientDisconnect` is called with it,
and it is still in the pool afterwards. -/
theorem C8_MessageClient_leaves_client_in_pool :
    ∃ s, serverRun ({} : server_interface).Start sampleLostClient = some s
      ∧ s.connected (some 0) = false
      ∧ s.disconnected = [some 0]
      ∧ s.m_deqConnections = [some 0] :=
  ⟨_, rfl, rfl, rfl, rfl⟩

/-- C9: on an inbox of `k` entries, `Update(n)` hands the first `min n k` entries
to `OnMessage`, in queue order, each entry with its own source and message, and
leaves the other entries in the queue in their order. -/
theorem C9_Update_drains_in_order {σ : Type} (OnMessage : σ → sOwnedMessage → σ)
    (s : server_interface) (app : σ) (n : Nat) (hn : n < 2 ^ 64) :
    s.Update OnMessage app n
        = (List.foldl OnMessage app (s.m_qMessagesIn.myDeque.take (min n s.m_qMessagesIn.count)),
           { s with m_qMessagesIn :=
              { myDeque := s.m_qMessagesIn.myDeque.drop (min n s.m_qMessagesIn.count) } })
      ∧ (s.m_qMessagesIn.myDeque.take (min n s.m_qMessagesIn.count)).length
          = min n s.m_qMessagesIn.count
      ∧ (s.m_qMessagesIn.myDeque.drop (min n s.m_qMessagesIn.count)).length
          = s.m_qMessagesIn.count - min n s.m_qMessagesIn.count := by
  have htake : s.m_qMessagesIn.myDeque.take (min n s.m_qMessagesIn.count)
      = s.m_qMessagesIn.myDeque.take n := by
    simp only [TsQueue.count]
    rw [List.take_eq_take]
    omega
  have hdrop : s.m_qMessagesIn.myDeque.drop (min n s.m_qMessagesIn.count)
      = s.m_qMessagesIn.myDeque.drop n := by
    simp only [TsQueue.count]
    by_cases hle : n ≤ s.m_qMessagesIn.myDeque.length
    · rw [Nat.min_eq_left hle]
    · rw [Nat.min_eq_right (by omega), List.drop_length, List.drop_of_length_le (by omega)]
  refine ⟨?_, ?_, ?_⟩
  · rw [htake, hdrop]
    simp only [server_interface.Update]
    rw [Update_loop_spec OnMessage n hn _ 0 app (Nat.zero_le n)]
    simp
  · simp [TsQueue.count]
  · simp [TsQueue.count]

theorem C9_Update_drains_in_order_witness :
    2 < 2 ^ 64
      ∧ (sampleInbox.Update recordMessage [] Update_unbounded).1
          = sampleInbox.m_qMessagesIn.myDeque
      ∧ (sampleInbox.Update recordMessage [] 2).1
          = [{ remote := some 0, message := samplePing },
             { remote := some 1, message := sampleMessage }]
      ∧ (sampleInbox.Update recordMessage [] 2).2.m_qMessagesIn.myDeque
          = [{ remote := some 0, message := sampleMessage }] :=
  ⟨by decide,
    (congrArg Prod.fst (C9_Update_drains_in_order recordMessage sampleInbox [] Update_unbounded
      (by decide)).1).trans rfl,
    (congrArg Prod.fst (C9_Update_drains_in_order recordMessage sampleInbox [] 2 (by decide)).1).trans
      rfl,
    (congrArg (fun r => r.2.m_qMessagesIn.myDeque)
      (C9_Update_drains_in_order recordMessage sampleInbox [] 2 (by decide)).1).trans rfl⟩

theorem serverStep_approved_length (s s1 : server_interface) (e : ServerEvent)
    (h : serverStep s e = some s1) :
    s1.approved.length
      = s.approved.length + (if e = ServerEvent.accept false true then 1 else 0) := by
  cases e with
  | accept ec approve =>
    simp only [serverStep] at h
    split at h
    · exact absurd h (by simp)
    · simp only [Option.some.injEq] at h
      obtain ⟨-, hyes, hno⟩ := accept_completion_spec
        ({ s with acceptsArmed := s.acceptsArmed - 1 } : server_interface) ec approve
      rw [h] at hyes hno
      by_cases hcase : ec = false ∧ approve = true
      · rw [(hyes hcase.1 hcase.2).1]
        simp [hcase.1, hcase.2]
      · rw [(hno hcase).1]
        have : ¬ (ServerEvent.accept ec approve = ServerEvent.accept false true) := by
          intro heq
          simp only [ServerEvent.accept.injEq] at heq
          exact hcase heq
        simp [this]
  | socketClosed a =>
    simp only [serverStep, Option.some.injEq] at h
    subst h
    simp
  | messageClient client m =>
    simp only [serverStep, Option.some.injEq] at h
    subst h
    rw [(MessageClient_frame s client m).1]
    simp
  | messageAllClients m ig =>
    simp only [serverStep, Option.some.injEq] at h
    subst h
    rw [(MessageAllClients_frame s m ig).1]
    simp

theorem serverRun_approved_length (evs : List ServerEvent) (s s1 : server_interface)
    (h : serverRun s evs = some s1) :
    s1.approved.length = s.approved.length + evs.count (ServerEvent.accept false true) := by
  induction evs generalizing s with
  | nil =>
    simp only [serverRun, Option.some.injEq] at h
    subst h
    simp
  | cons e es ih =>
    simp only [serverRun] at h
    split at h
    · exact absurd h (by simp)
    · rename_i s2 hstep
      rw [ih s2 h, serverStep_approved_length s s2 e hstep, List.count_cons]
      by_cases he : e = ServerEvent.accept false true
      · simp [he]; omega
      · simp [he]

/-- C10 (as amended): on a fresh server every sequence of accepts, socket
closures and pool sweeps runs; the log of approved ids has one entry per
approved connection; its n-th entry (from 0) is `(10000 + n) mod 2^32`; so for
`n < 2^32 - 10000` it is `10000 + n`, and below that bound the ids strictly
increase in acceptance order, whatever was removed from the pool in between. -/
theorem C10_ids_follow_counter (evs : List ServerEvent) :
    ∃ s, serverRun ({} : server_interface).Start evs = some s
      ∧ s.approved.length = evs.count (ServerEvent.accept false true)
      ∧ (∀ n, n < s.approved.length → s.approved[n]? = some ((10000 + n) % 2 ^ 32))
      ∧ (∀ n, n < s.approved.length → n < 2 ^ 32 - 10000 → s.approved[n]? = some (10000 + n))
      ∧ (∀ i j a b, i < j → j < 2 ^ 32 - 10000 → s.approved[i]? = some a →
          s.approved[j]? = some b → a < b) := by
  obtain ⟨s, hrun, hlog, -⟩ := serverRun_ids evs ({} : server_interface).Start
    (by decide) (fun i hi => absurd hi (Nat.not_lt_zero i)) (by decide)
  have hlen := serverRun_approved_length evs _ s hrun
  have hsmall : ∀ n, n < s.approved.length → n < 2 ^ 32 - 10000 →
      s.approved[n]? = some (10000 + n) := by
    intro n hn hb
    rw [hlog n hn, Nat.mod_eq_of_lt (by omega)]
  refine ⟨s, hrun, by simpa [server_interface.Start,
    server_interface.WaitForClientConnection] using hlen, hlog, hsmall, ?_⟩
  intro i j a b hij hj ha hb
  have hjlen : j < s.approved.length := by
    by_contra hcon
    rw [List.getElem?_eq_none (by omega)] at hb
    cases hb
  rw [hsmall i (by omega) (by omega)] at ha
  rw [hsmall j hjlen hj] at hb
  cases ha; cases hb
  omega

/-- C10 (counterexample): after `2^32 + 1` approved connections the one numbered
`2^32 - 10000` has id 0, not `10000 + n` and below the ids before it, and the
one numbered `2^32` has id 10000, the id of the first. -/
theorem C10_id_counter_wraps :
    ∃ s, serverRun ({} : server_interface).Start manyAccepts = some s
      ∧ s.approved[0]? = some 10000
      ∧ s.approved[2 ^ 32 - 10000]? = some 0
      ∧ s.approved[2 ^ 32]? = some 10000 := by
  obtain ⟨s, hrun, hlog, -⟩ := serverRun_ids manyAccepts ({} : server_interface).Start
    (by decide) (fun i hi => absurd hi (Nat.not_lt_zero i)) (by decide)
  obtain ⟨s1, hrun1, hlen, -⟩ := serverRun_accepts (2 ^ 32 + 1) ({} : server_interface).Start
    (by decide)
  have hs : s1 = s := Option.some.inj (hrun1.symm.trans hrun)
  subst hs
  have hlen1 : s1.approved.length = 2 ^ 32 + 1 := by
    rw [hlen]; exact Nat.zero_add _
  refine ⟨s1, hrun, ?_, ?_, ?_⟩
  · rw [hlog 0 (by rw [hlen1]; decide)]
    decide
  · rw [hlog (2 ^ 32 - 10000) (by rw [hlen1]; decide)]
    decide
  · rw [hlog (2 ^ 32) (by rw [hlen1]; decide)]
    decide

/-! ## The accept handler -/

theorem modify_length_append {α : Type} (f : α → α) (l : List α) (x : α) :
    (l ++ [x]).modify f l.length = l ++ [f x] := by
  induction l with
  | nil => rfl
  | cons a l ih => simp [List.modify_succ_cons, ih]

theorem accept_completion_objects (s : server_interface) :
    (s.accept_completion false false).objects
        = s.objects ++ [connection.new s.objects.length owner.server true s.m_qMessagesIn]
      ∧ (s.accept_completion false true).objects
        = s.objects ++ [ConnectToClient
            (connection.new s.objects.length owner.server true s.m_qMessagesIn) s.nIDCounter]
      ∧ ∀ approve, s.accept_completion true approve
          = { s with acceptsArmed := s.acceptsArmed + 1 } := by
  refine ⟨?_, ?_, ?_⟩
  · simp [server_interface.accept_completion, server_interface.WaitForClientConnection]
  · have hnew : (connection.new s.objects.length owner.server true s.m_qMessagesIn).self
        = s.objects.length := rfl
    simp [server_interface.accept_completion, server_interface.WaitForClientConnection, hnew,
      modify_length_append, List.getElem?_append_right]
  · intro approve
    simp [server_interface.accept_completion, server_interface.WaitForClientConnection]

/-- C11 (as amended): the handler of `async_accept` always re-arms the accept
loop.  When the accept succeeded and `OnClientConnect` returns false, the pool
and the id counter are unchanged and the new connection object has no read
outstanding.  When it returns true, the new connection is appended at the back
of the pool, it is given the value of the counter as its id with its first
header read outstanding, and the counter becomes that value plus one modulo
`2^32`: one more unless it held `2^32 - 1`.  When the accept failed nothing but
the re-arming happens. -/
theorem C11_accept_handler_effects (s : server_interface) :
    ((s.accept_completion false false).m_deqConnections = s.m_deqConnections
        ∧ (s.accept_completion false false).nIDCounter = s.nIDCounter
        ∧ (s.accept_completion false false).objects
          = s.objects ++ [connection.new s.objects.length owner.server true s.m_qMessagesIn]
        ∧ (connection.new s.objects.length owner.server true s.m_qMessagesIn).reads = []
        ∧ (s.accept_completion false false).acceptsArmed = s.acceptsArmed + 1)
      ∧ ((s.accept_completion false true).m_deqConnections
          = s.m_deqConnections ++ [some s.objects.length]
        ∧ (s.accept_completion false true).objects
          = s.objects ++ [ConnectToClient
              (connection.new s.objects.length owner.server true s.m_qMessagesIn) s.nIDCounter]
        ∧ (ConnectToClient (connection.new s.objects.length owner.server true s.m_qMessagesIn)
            s.nIDCounter).id = s.nIDCounter
        ∧ (ConnectToClient (connection.new s.objects.length owner.server true s.m_qMessagesIn)
            s.nIDCounter).reads = [ReadOp.header]
        ∧ (s.accept_completion false true).nIDCounter = (s.nIDCounter + 1) % 2 ^ 32
        ∧ (s.nIDCounter + 1 < 2 ^ 32 →
            (s.accept_completion false true).nIDCounter = s.nIDCounter + 1)
        ∧ (s.accept_completion false true).acceptsArmed = s.acceptsArmed + 1)
      ∧ ∀ approve, s.accept_completion true approve
          = { s with acceptsArmed := s.acceptsArmed + 1 } := by
  obtain ⟨hden, happ, hfail⟩ := accept_completion_objects s
  obtain ⟨harm0, -, hno⟩ := accept_completion_spec s false false
  obtain ⟨harm1, hyes, -⟩ := accept_completion_spec s false true
  obtain ⟨-, hc0, hp0⟩ := hno (by simp)
  obtain ⟨-, hc1, hp1⟩ := hyes rfl rfl
  refine ⟨⟨hp0, hc0, hden, rfl, harm0⟩, ⟨hp1, happ, rfl, rfl, hc1, ?_, harm1⟩, hfail⟩
  intro hlt
  rw [hc1, Nat.mod_eq_of_lt hlt]

/-- C11 (counterexample): after the approvals that use up the ids below `2^32 - 1`
the counter holds `2^32 - 1`, and the handler of the next approved accept leaves
it at 0: it has not grown by one. -/
theorem C11_id_counter_wraps_to_zero :
    ∃ s, serverRun ({} : server_interface).Start acceptsUpToLastId = some s
      ∧ s.nIDCounter = 2 ^ 32 - 1
      ∧ (s.accept_completion false true).nIDCounter = 0 := by
  obtain ⟨s, hrun, -, hctr⟩ := serverRun_ids acceptsUpToLastId ({} : server_interface).Start
    (by decide) (fun i hi => absurd hi (Nat.not_lt_zero i)) (by decide)
  obtain ⟨s1, hrun1, hlen, -⟩ := serverRun_accepts (2 ^ 32 - 10001)
    ({} : server_interface).Start (by decide)
  have hs : s1 = s := Option.some.inj (hrun1.symm.trans hrun)
  subst hs
  have hlen1 : s1.approved.length = 2 ^ 32 - 10001 := by
    rw [hlen]; exact Nat.zero_add _
  have hval : s1.nIDCounter = 2 ^ 32 - 1 := by
    rw [hctr, hlen1]; decide
  refine ⟨s1, hrun, hval, ?_⟩
  rw [((accept_completion_spec s1 false true).2.1 rfl rfl).2.1, hval]
  decide

/-- C12 (evaluation): whatever constant `sizeof` yields, `size()` returns it for
the empty message and for a message with a four-byte body alike, so for one of
the two it is not `sizeof(header)` plus the number of body bytes. -/
theorem C12_size_ignores_body (sizeofOperand : Nat) :
    samplePing.size sizeofOperand = sampleMessage.size sizeofOperand
      ∧ samplePing.body.length = 0
      ∧ sampleMessage.body.length = 4
      ∧ (samplePing.size sizeofOperand ≠ sizeofHeader + samplePing.body.length
          ∨ sampleMessage.size sizeofOperand ≠ sizeofHeader + sampleMessage.body.length) := by
  refine ⟨rfl, rfl, rfl, ?_⟩
  have h0 : samplePing.body.length = 0 := rfl
  have h4 : sampleMessage.body.length = 4 := rfl
  simp only [sMessage.size, h0, h4]
  omega

/-- C13 (evaluation): a message with a four-byte body and then a message with
`header.size == 0` arrive on a fresh server-side connection.  Both are
delivered; the second has `header.size = 0` and the four body bytes of the
first. -/
theorem C13_empty_message_carries_previous_body :
    (recv 4 sampleReceiver sampleTwoFrames).2 = []
      ∧ (recv 4 sampleReceiver sampleTwoFrames).1.m_qMessagesIn.myDeque
        = [{ remote := some 0, message := sampleMessage },
           { remote := some 0,
             message := { header := { id := 0, size := 0 }, body := bytesOfUInt32 15 } }]
      ∧ (recv 4 sampleReceiver sampleTwoFrames).1.reads = [ReadOp.header] :=
  ⟨rfl, rfl, rfl⟩

end net
